import Mathlib

/-!
Verification of the bit-level constraint-system gadgets of the sapir
repository (`src/frontend/gadgets/bitops.rs`, `src/frontend/gadgets/to_addr.rs`).

The gadgets are generic over an arkworks `PrimeField F`; we embed them over
`ZMod p` for an arbitrary modulus `p` (the repository instantiates
`F = ark_secq256k1::Fr`, whose modulus is `secqP` below).

The constraint system itself (`frontend/constraint_system.rs`) is not part of
the provided sources; its operations are modelled from the specification
(spec.md sections 3 and 4.1) as explicit state passing over a wire arena and an
append-only list of rank-one constraints, with a mode flag distinguishing
witness generation from constraint generation.
-/

namespace Sapir

/-- Wires are opaque handles carrying an index into the constraint system's
wire arena (a natural number); equality of wires is index equality.  We use
`Nat` directly for wire indices throughout. -/
abbrev WireIdx := Nat

/-- Sparse linear combination over wire indices with field coefficients. -/
abbrev LinComb (p : Nat) := List (Nat × ZMod p)

/-- Rank-one constraint `⟨A,w⟩ · ⟨B,w⟩ = ⟨C,w⟩`. -/
structure Constraint (p : Nat) where
  A : LinComb p
  B : LinComb p
  C : LinComb p
deriving DecidableEq

/-- Dense map from wire indices to field values, used as the wire arena of
witness mode.  Implemented as a binary trie keyed by the index bits so that
concrete witness runs evaluate quickly inside the kernel; unset indices read
as 0. -/
inductive WTrie (p : Nat) where
  | leaf : WTrie p
  | node : WTrie p → Option (ZMod p) → WTrie p → WTrie p

/-- Read a wire value from the arena (0 when unset). -/
def tget {p : Nat} : WTrie p → Nat → ZMod p
  | .leaf, _ => 0
  | .node _ v _, 0 => v.getD 0
  | .node l _ r, n+1 =>
    if (n+1) % 2 = 1 then tget l (n / 2) else tget r ((n-1) / 2)

/-- Write helper for `tset`; the first argument is recursion fuel (64 suffices
for every index below `2^64`, and wire indices are far smaller). -/
def tsetAux {p : Nat} : Nat → WTrie p → Nat → ZMod p → WTrie p
  | 0, t, _, _ => t
  | _+1, .leaf, 0, v => .node .leaf (some v) .leaf
  | fuel+1, .leaf, k+1, v =>
    if (k+1) % 2 = 1 then .node (tsetAux fuel .leaf (k / 2) v) none .leaf
    else .node .leaf none (tsetAux fuel .leaf ((k-1) / 2) v)
  | _+1, .node l _ r, 0, v => .node l (some v) r
  | fuel+1, .node l c r, k+1, v =>
    if (k+1) % 2 = 1 then .node (tsetAux fuel l (k / 2) v) c r
    else .node l c (tsetAux fuel r ((k-1) / 2) v)

/-- Write a wire value into the arena. -/
def tset {p : Nat} (t : WTrie p) (k : Nat) (v : ZMod p) : WTrie p :=
  tsetAux 64 t k v

/-- Modelled from the spec: the constraint system (`frontend/constraint_system.rs`
is not among the provided sources).  It holds a dense vector of wire
assignments (valid in witness mode), an append-only list of rank-one
constraints (populated in constraint mode), a dense monotone wire-index
allocator, and the mode flag.  Nat index 0 is reserved for the constant 1
("one") and wire index 1 for the constant 0 ("zero"). -/
structure CS (p : Nat) where
  next : Nat
  wires : WTrie p
  constraints : List (Constraint p)
  witnessGen : Bool

/-- State-passing computation over the constraint system. -/
def CSM (p : Nat) (α : Type) := CS p → α × CS p

instance (p : Nat) : Monad (CSM p) where
  pure a := fun s => (a, s)
  bind m f := fun s => let r := m s; f r.1 r.2

/-- Modelled from the spec: `cs.one()`, the canonical wire holding 1. -/
def csOne : Nat := 0

/-- Modelled from the spec: `cs.zero()`, the canonical wire holding 0. -/
def csZero : Nat := 1

/-- Modelled from the spec: `alloc_var(initial)` allocates a fresh internal
wire; in witness mode it stores `initial`, in constraint mode it allocates a
slot only. -/
def alloc_var {p : Nat} (v : ZMod p) : CSM p Nat := fun s =>
  (s.next,
   { s with
     next := s.next + 1
     wires := if s.witnessGen then tset s.wires s.next v else s.wires })

/-- Value of a sparse linear combination under the arena. -/
def lcEvalT {p : Nat} (w : WTrie p) (L : LinComb p) : ZMod p :=
  (L.map (fun t => t.2 * tget w t.1)).sum

/-- Modelled from the spec: `constrain(A, B, C)` is the sole primitive emitting
algebra.  It returns a fresh wire `w` closing `C`: in constraint mode it
appends the rank-one constraint `⟨A⟩·⟨B⟩ = w − ⟨C⟩` (stored with `C`'s given
terms negated, as in `(−2a)·(b) = c − a − b` for `bit_xor`), and in witness
mode it assigns `w := ⟨A⟩·⟨B⟩ + ⟨C⟩` and records nothing. -/
def constrain {p : Nat} (A B C : LinComb p) : CSM p Nat := fun s =>
  let w := s.next
  if s.witnessGen then
    (w, { s with
          next := w + 1
          wires := tset s.wires w (lcEvalT s.wires A * lcEvalT s.wires B + lcEvalT s.wires C) })
  else
    (w, { s with
          next := w + 1
          constraints :=
            ⟨A, B, (w, 1) :: C.map (fun t => (t.1, -t.2))⟩ :: s.constraints })

/-- Modelled from the spec: `mul_const(w, k)` returns a wire valued `k·w`,
realised through the trivial constraint `(k·w)·(one) = out` since wires are
opaque indices that cannot carry coefficients. -/
def mul_const {p : Nat} (w : Nat) (k : ZMod p) : CSM p Nat :=
  constrain [(w, k)] [(csOne, 1)] []

/-- Modelled from the spec: `sum(terms)` returns a wire equal to the signed sum
of the given wires, via `(Σ ±wᵢ)·(one) = out`. -/
def sum_wires {p : Nat} (terms : List (Nat × Bool)) : CSM p Nat :=
  constrain (terms.map (fun t => (t.1, if t.2 then (1 : ZMod p) else -1))) [(csOne, 1)] []

/-- Modelled from the spec: multiplication of two wires (`Nat * Nat` in the
source), via the constraint `(a)·(b) = out`. -/
def wire_mul {p : Nat} (a b : Nat) : CSM p Nat :=
  constrain [(a, (1 : ZMod p))] [(b, 1)] []

/-- Modelled from the spec: addition of two wires (`Nat + Nat` in the
source), via the constraint `(a + b)·(one) = out`. -/
def wire_add {p : Nat} (a b : Nat) : CSM p Nat :=
  constrain [(a, (1 : ZMod p)), (b, 1)] [(csOne, 1)] []

/-- Modelled from the spec: `alloc_const(c)` allocates a wire and constrains it
to equal `c` through `(w − c·one)·(one) = 0`. -/
def alloc_const {p : Nat} (c : ZMod p) : CSM p Nat := fun s =>
  let w := s.next
  if s.witnessGen then
    (w, { s with next := w + 1, wires := tset s.wires w c })
  else
    (w, { s with
          next := w + 1
          constraints := ⟨[(w, 1), (csOne, -c)], [(csOne, 1)], []⟩ :: s.constraints })

/-- Modelled from the spec: `assert_equal(a, b)` appends `(a − b)·(one) = 0`. -/
def assert_equal {p : Nat} (a b : Nat) : CSM p Unit := fun s =>
  if s.witnessGen then ((), s)
  else ((), { s with
              constraints := ⟨[(a, (1 : ZMod p)), (b, -1)], [(csOne, 1)], []⟩ :: s.constraints })

/-- Fresh constraint system in the given mode, with the "one" and "zero" wires
pre-allocated (indices 0 and 1, values 1 and 0). -/
def initCS (p : Nat) (wg : Bool) : CS p :=
  { next := 2
    wires := tset (tset .leaf 0 1) 1 0
    constraints := []
    witnessGen := wg }

/-- Monadic map over a list, written by explicit recursion so that proofs can
unfold it step by step. -/
def mapCSM {p : Nat} {α β : Type} (f : α → CSM p β) : List α → CSM p (List β)
  | [] => pure []
  | a :: l => do
    let b ← f a
    let bs ← mapCSM f l
    pure (b :: bs)

/-- Monadic left fold over a list, written by explicit recursion. -/
def foldCSM {p : Nat} {α β : Type} (f : β → α → CSM p β) : β → List α → CSM p β
  | b, [] => pure b
  | b, a :: l => do
    let b' ← f b a
    foldCSM f b' l

/-! ## The bit gadgets of `src/frontend/gadgets/bitops.rs` -/

/-- Value of a linear combination under an arbitrary assignment of field values
to wire indices (used to state what satisfying assignments must fulfil). -/
def lcEval {p : Nat} (v : Nat → ZMod p) (L : LinComb p) : ZMod p :=
  (L.map (fun t => t.2 * v t.1)).sum

/-- Satisfaction of one rank-one constraint by an assignment. -/
def cHolds {p : Nat} (v : Nat → ZMod p) (c : Constraint p) : Prop :=
  lcEval v c.A * lcEval v c.B = lcEval v c.C

instance {p : Nat} (v : Nat → ZMod p) (c : Constraint p) : Decidable (cHolds v c) := by
  unfold cHolds; infer_instance

/-- An assignment satisfies a constraint list when it gives the reserved "one"
and "zero" wires their constants (a spec invariant for any satisfying witness)
and satisfies every constraint. -/
def Satisfies {p : Nat} (v : Nat → ZMod p) (l : List (Constraint p)) : Prop :=
  v csOne = 1 ∧ v csZero = 0 ∧ ∀ c ∈ l, cHolds v c

instance {p : Nat} (v : Nat → ZMod p) (l : List (Constraint p)) :
    Decidable (Satisfies v l) := by
  unfold Satisfies; infer_instance

/-- `bit_xor(a, b)` from bitops.rs: the single constraint
`(−2a)·(b) = c − a − b`. -/
def bit_xor {p : Nat} (a b : Nat) : CSM p Nat :=
  constrain [(a, -(2 : ZMod p))] [(b, 1)] [(a, 1), (b, 1)]

/-- `xor_64(a, b)` from bitops.rs: elementwise `bit_xor` over 64-lane arrays. -/
def xor_64 {p : Nat} (a b : List Nat) : CSM p (List Nat) :=
  mapCSM (fun t => bit_xor t.1 t.2) (a.zip b)

/-- `not_a_and_b(a, b)` from bitops.rs: the constraint
`(a·(−1) + one·1)·(b·1) = c`. -/
def not_a_and_b {p : Nat} (a b : Nat) : CSM p Nat :=
  constrain [(a, -(1 : ZMod p)), (csOne, 1)] [(b, 1)] []

/-- `not_a_and_b_64` from bitops.rs: elementwise over 64-lane arrays. -/
def not_a_and_b_64 {p : Nat} (a b : List Nat) : CSM p (List Nat) :=
  mapCSM (fun t => not_a_and_b t.1 t.2) (a.zip b)

/-- Rust `usize` wrapping subtraction `i.wrapping_sub(n)` for `n < 2^64`. -/
def usizeWrapSub (i n : Nat) : Nat :=
  (i + (2 ^ 64 - n % 2 ^ 64)) % 2 ^ 64

/-- `rotate_left_64(a, n)` from bitops.rs: pure wire-array reindexing
`out[i] = a[i.wrapping_sub(n) % 64]`; no constraint system interaction. -/
def rotate_left_64 (a : List Nat) (n : Nat) : List Nat :=
  (List.range 64).map (fun i => a.getD (usizeWrapSub i n % 64) 0)

/-- Loop of `from_bits`: visits the bits in reverse order with powers
`1, 2, 4, …`, pushing one `mul_const` wire per bit. -/
def fromBitsTerms {p : Nat} : List Nat → ZMod p → CSM p (List (Nat × Bool))
  | [], _ => pure []
  | b :: l, pow => do
    let m ← mul_const b pow
    let ms ← fromBitsTerms l (pow * 2)
    pure ((m, true) :: ms)

/-- `from_bits(bits)` from bitops.rs: interprets the slice tail as the least
significant bit (`bits[0]` is the most significant) and returns the packed
wire via `cs.sum`. -/
def from_bits {p : Nat} (bits : List Nat) : CSM p Nat := do
  let terms ← fromBitsTerms bits.reverse (1 : ZMod p)
  sum_wires terms

/-! ## The packing step of `src/frontend/gadgets/to_addr.rs` (lines 158–174) -/

/-- The address-bit concatenation of `to_addr` (lines 158–161): the top 32 bits
of the second lane followed by all of the third and fourth lanes. -/
def addressBits (st : List (List Nat)) : List Nat :=
  (st.getD 1 []).drop 32 ++ st.getD 2 [] ++ st.getD 3 []

/-- The source expression `from_bits(&bits) * cs.alloc_const(k)`: a `from_bits`
read followed by an `alloc_const` and the wire multiplication. -/
def scaled_from_bits {p : Nat} (bits : List Nat) (k : ZMod p) : CSM p Nat := do
  let f ← from_bits bits
  let c ← alloc_const k
  wire_mul f c

/-- The packing step of `to_addr` (lines 163–174): three `from_bits` reads of
the 160 address bits (the third with 32 zero wires prepended), the first two
scaled by `2^128` and `2^64` through an `alloc_const`/multiplication pair, then
summed. -/
def packAddress {p : Nat} (ab : List Nat) : CSM p Nat := do
  let s0 ← scaled_from_bits (ab.take 64) ((2 : ZMod p) ^ 128)
  let s1 ← scaled_from_bits ((ab.drop 64).take 64) ((2 : ZMod p) ^ 64)
  let s2 ← from_bits (List.replicate 32 csZero ++ ab.drop 128)
  let t ← wire_add s0 s1
  wire_add t s2

/-- 160 freshly allocated input bit wires, as `alloc_priv_inputs(160)` would
produce them, in constraint mode. -/
def packInputs (p : Nat) : List Nat × CS p :=
  mapCSM (fun _ => alloc_var (0 : ZMod p)) (List.range 160) (initCS p false)

/-- Standalone constraint-mode run of the packing step of `to_addr` on 160
freshly allocated bit wires. -/
def packCircuit (p : Nat) : Nat × CS p :=
  packAddress (packInputs p).1 (packInputs p).2

/-! ## The Keccak-f[1600] circuit of `to_addr` (to_addr.rs lines 51–175) -/

/-- The 24 Keccak round constants (`RC` in to_addr.rs). -/
def RC : List Nat :=
  [1, 0x8082, 0x800000000000808a, 0x8000000080008000,
   0x808b, 0x80000001, 0x8000000080008081, 0x8000000000008009,
   0x8a, 0x88, 0x80008009, 0x8000000a,
   0x8000808b, 0x800000000000008b, 0x8000000000008089, 0x8000000000008003,
   0x8000000000008002, 0x8000000000000080, 0x800a, 0x800000008000000a,
   0x8000000080008081, 0x8000000000008080, 0x80000001, 0x8000000080008008]

/-- The rho-step rotation offset table (`RHO_OFFSETS` in to_addr.rs), indexed
`RHO_OFFSETS[y][x]`. -/
def RHO_OFFSETS : List (List Nat) :=
  [[0, 1, 190, 28, 91],
   [36, 300, 6, 55, 276],
   [3, 10, 171, 153, 231],
   [105, 45, 15, 21, 136],
   [210, 66, 253, 120, 78]]

/-- The padding block of `to_addr` (lines 57–59): `RATE − 512 = 576` zero wires
with the first and last replaced by the one wire. -/
def keccakPad : List Nat :=
  csOne :: (List.replicate 574 csZero ++ [csOne])

/-- The padded 1600-wire input (lines 61–63): the 512 input wires, the padding
block, and zero wires for the capacity. -/
def paddedInput (input : List Nat) : List Nat :=
  input ++ keccakPad ++ List.replicate 512 csZero

/-- The 25 lanes of 64 wires (lines 65–69). -/
def stateLanes (padded : List Nat) : List (List Nat) :=
  (List.range 25).map (fun i => (padded.drop (i * 64)).take 64)

/-- The round-constant wires (lines 72–83): bit `i` of each constant selects
the one or the zero wire. -/
def rcWires : List (List Nat) :=
  RC.map (fun c => (List.range 64).map (fun i => if (c >>> i) % 2 = 1 then csOne else csZero))

/-- Theta, first loop (lines 87–94): fold over `t = x + y·5` accumulating
`c[x] = xor_64(c[x], state[t])` from an all-zero-wire start. -/
def thetaC {p : Nat} (st : List (List Nat)) : CSM p (List (List Nat)) :=
  foldCSM (fun c t => do
      let cx ← xor_64 (c.getD (t % 5) []) (st.getD t [])
      pure (c.set (t % 5) cx))
    (List.replicate 5 (List.replicate 64 csZero)) (List.range 25)

/-- Theta, second loop (lines 96–98):
`d[x] = xor_64(c[(x+4) % 5], rotate_left_64(c[(x+1) % 5], 1))`. -/
def thetaD {p : Nat} (c : List (List Nat)) : CSM p (List (List Nat)) :=
  mapCSM (fun x => xor_64 (c.getD ((x + 4) % 5) []) (rotate_left_64 (c.getD ((x + 1) % 5) []) 1))
    (List.range 5)

/-- Theta, third loop (lines 100–104): `state[t] = xor_64(state[t], d[t % 5])`. -/
def thetaState {p : Nat} (st d : List (List Nat)) : CSM p (List (List Nat)) :=
  mapCSM (fun t => xor_64 (st.getD t []) (d.getD (t % 5) [])) (List.range 25)

/-- The rho walk (lines 109–119): 24 in-place lane rotations following the
`(x, y) ↦ (y, 2x + 3y mod 5)` walk from `(0, 1)`; the first argument is the
iteration count. -/
def rhoAux : Nat → List (List Nat) → Nat → Nat → List (List Nat)
  | 0, st, _, _ => st
  | fuel + 1, st, x, y =>
    rhoAux fuel
      (st.set (x + 5 * y)
        (rotate_left_64 (st.getD (x + 5 * y) []) ((RHO_OFFSETS.getD y []).getD x 0 % 64)))
      y ((2 * x + 3 * y) % 5)

/-- The rho step of a round. -/
def rho (st : List (List Nat)) : List (List Nat) :=
  rhoAux 24 st 0 1

/-- The pi step (lines 125–131): `state[x + y·5] = cloned[(x + 3y) % 5 + x·5]`,
written over `t = x + y·5`. -/
def piStep (st : List (List Nat)) : List (List Nat) :=
  (List.range 25).map (fun t => st.getD ((t % 5 + 3 * (t / 5)) % 5 + (t % 5) * 5) [])

/-- The chi step (lines 137–149):
`state[t] = xor_64(cloned[t], not_a_and_b_64(cloned[(x+1)%5 + y·5], cloned[(x+2)%5 + y·5]))`. -/
def chi {p : Nat} (st : List (List Nat)) : CSM p (List (List Nat)) :=
  mapCSM (fun t => do
      let n ← not_a_and_b_64 (st.getD ((t % 5 + 1) % 5 + (t / 5) * 5) [])
        (st.getD ((t % 5 + 2) % 5 + (t / 5) * 5) [])
      xor_64 (st.getD t []) n)
    (List.range 25)

/-- One Keccak round of `to_addr` (lines 85–156): theta, rho, pi, chi, iota. -/
def keccakRound {p : Nat} (st : List (List Nat)) (i : Nat) : CSM p (List (List Nat)) := do
  let c ← thetaC st
  let d ← thetaD c
  let st1 ← thetaState st d
  let st3 ← chi (piStep (rho st1))
  let l0 ← xor_64 (st3.getD 0 []) (rcWires.getD i [])
  pure (st3.set 0 l0)

/-- `to_addr(input)` from to_addr.rs: pad, absorb into 25 lanes, 24 Keccak
rounds, then the address packing step. -/
def to_addr {p : Nat} (input : List Nat) : CSM p Nat := do
  let st ← foldCSM keccakRound (stateLanes (paddedInput input)) (List.range 24)
  packAddress (addressBits st)

/-- The synthesizer of the repository's `to_addr_circuit` test harness:
allocate the 512 private input bit wires (with the given values), then run
`to_addr`. -/
def to_addr_circuit {p : Nat} (vals : List (ZMod p)) : CSM p Nat := do
  let ws ← mapCSM (fun v => alloc_var v) vals
  to_addr ws

/-! ## Claim C7: bit_xor -/

/-- The value an assignment must give the output of `bit_xor`:
`a + b − 2ab`. -/
def xorVal {p : Nat} (a b : ZMod p) : ZMod p := a + b - 2 * (a * b)

/-- Concrete assignment used in the C7 witness: wire 0 (the "one" wire) holds
1, wire 1 (the "zero" wire) holds 0, output wire 2 holds 1. -/
def vW7 : Nat → ZMod 5 := fun i => if i = 0 then 1 else if i = 2 then 1 else 0

/-! ## Machinery: what satisfying assignments must give constrain-produced wires -/

/-- Satisfaction of every constraint in a list (without the reserved-wire
conditions of `Satisfies`). -/
def SatList {p : Nat} (v : Nat → ZMod p) (l : List (Constraint p)) : Prop :=
  ∀ c ∈ l, cHolds v c

/-- Signed sum of term wires, as `cs.sum` computes it. -/
def wsum {p : Nat} (v : Nat → ZMod p) (terms : List (Nat × Bool)) : ZMod p :=
  (terms.map (fun t => if t.2 then v t.1 else -v t.1)).sum

/-- Least-significant-bit-first value of a wire list under an assignment. -/
def lsbVal {p : Nat} (v : Nat → ZMod p) (l : List Nat) : ZMod p :=
  l.foldr (fun w acc => v w + 2 * acc) 0

/-- Most-significant-bit-first value of a wire list under an assignment: the
packing convention of `from_bits` (slice tail is the least significant bit). -/
def msbVal {p : Nat} (v : Nat → ZMod p) (l : List Nat) : ZMod p :=
  l.foldl (fun acc w => v w + 2 * acc) 0

/-! ## to_bits from bitops.rs, and claim C10 -/

/-- Modulus of `ark_secq256k1::Fr`, the field the repository instantiates the
gadgets with (the scalar field of secq256k1, equal to the base-field
characteristic of secp256k1). -/
def secqP : Nat :=
  115792089237316195423570985008687907853269984665640564039457584007908834671663

/-- Big-endian byte string of a natural number over a fixed number of bytes:
the embedding of `into_bigint().to_bytes_be()`, whose length is the byte size
of the field's big-integer representation (32 for the repository's field). -/
def bytesBE (nbytes a : Nat) : List Nat :=
  (List.range nbytes).map (fun i => a / 256 ^ (nbytes - 1 - i) % 256)

/-- Bit `j` of a byte, as a field element (`(b >> j) & 1`). -/
def bitOfByte (p : Nat) (b j : Nat) : ZMod p :=
  if b >>> j &&& 1 = 1 then 1 else 0

/-- The sequence of writes of `to_bits`' witness branch: for byte `i` (bytes in
big-endian order) and bit `j` (little-endian within the byte), write bit value
`(b >> j) & 1` at position `i*8 + j` of the freshly allocated bit vector. -/
def toBitsWrites (p : Nat) (abytes : List Nat) : List (Nat × ZMod p) :=
  (List.range abytes.length).flatMap
    (fun i => (List.range 8).map (fun j => (i * 8 + j, bitOfByte p (abytes.getD i 0) j)))

/-- Execute the witness-branch writes; accessing `bits[idx]` out of range is
the Rust `Vec` index panic, modelled as `none`. -/
def toBitsAssignBits {p : Nat} (bits : List Nat) :
    List (Nat × ZMod p) → CS p → Option (CS p)
  | [], s => some s
  | (idx, bv) :: rest, s =>
    match bits[idx]? with
    | none => none
    | some w => toBitsAssignBits bits rest { s with wires := tset s.wires w bv }

/-- The chunk loop of `to_bits` (over `bits.chunks(8).rev().enumerate()`):
reverse each chunk, pack it with `from_bits`, scale by `2^(8i)` via
`mul_const`, and accumulate with `+=`. -/
def toBitsSumLoop {p : Nat} : List (List Nat) → Nat → Nat → CSM p Nat
  | [], _, sumw => pure sumw
  | chunk :: rest, i, sumw => do
    let term ← from_bits chunk.reverse
    let m ← mul_const term ((2 : ZMod p) ^ (8 * i))
    let sumw' ← wire_add sumw m
    toBitsSumLoop rest (i + 1) sumw'

/-- Fuel-indexed `chunks(8)`; fuel equal to the list length suffices. -/
def chunksAux {α : Type} : Nat → List α → List (List α)
  | 0, _ => []
  | _+1, [] => []
  | fuel+1, a :: t => (a :: t).take 8 :: chunksAux fuel ((a :: t).drop 8)

/-- Rust's `slice.chunks(8)`. -/
def chunks8 {α : Type} (l : List α) : List (List α) :=
  chunksAux l.length l

/-- `to_bits(a, field_bits)` from bitops.rs.  `nbytes` is the byte length of
the field's big-integer representation (32 for the repository's field); the
result is `none` when witness generation panics on an out-of-bounds bit-vector
index. -/
def to_bits {p : Nat} (nbytes : Nat) (a : Nat) (fieldBits : Nat) (s : CS p) :
    Option (List Nat × CS p) :=
  let r1 := mapCSM (fun _ => alloc_var (0 : ZMod p)) (List.range fieldBits) s
  let s2opt := if r1.2.witnessGen
    then toBitsAssignBits r1.1 (toBitsWrites p (bytesBE nbytes (tget r1.2.wires a).val)) r1.2
    else some r1.2
  match s2opt with
  | none => none
  | some s2 =>
    let r3 := toBitsSumLoop (chunks8 r1.1).reverse 0 csZero s2
    let r4 := assert_equal a r3.1 r3.2
    some (r1.1, r4.2)

/-! ## Claims C3 and C4: what the constraints of to_bits actually enforce -/

/-- Value that the chunk loop of `to_bits` accumulates: chunk `j` of the
(reversed) chunk list contributes its little-endian packed value scaled by
`2^(8(i+j))`. -/
def loopVal {p : Nat} (v : Nat → ZMod p) : List (List Nat) → Nat → ZMod p
  | [], _ => 0
  | ch :: rest, i => lsbVal v ch * 2 ^ (8 * i) + loopVal v rest (i + 1)

/-! ## Completeness machinery: honest extensions satisfy the emitted constraints

The gadgets only reference wires that already exist, so the constraints of a
constraint-mode run can always be satisfied by extending an assignment of the
pre-existing wires with the computed values of the fresh wires.  This is what
lets us exhibit concrete satisfying assignments without evaluating runs. -/

/-- Every wire mentioned in the linear combination is below `n`. -/
def lcBound {p : Nat} (n : Nat) (L : LinComb p) : Prop := ∀ t ∈ L, t.1 < n

/-- Every wire mentioned in the constraint is below `n`. -/
def cBound {p : Nat} (n : Nat) (c : Constraint p) : Prop :=
  lcBound n c.A ∧ lcBound n c.B ∧ lcBound n c.C

/-- Well-formed state: the reserved wires exist and every constraint only
mentions allocated wires. -/
def csBound {p : Nat} (s : CS p) : Prop :=
  2 ≤ s.next ∧ ∀ c ∈ s.constraints, cBound s.next c

/-- Two assignments agree on all wires below `n`. -/
def agreeBelow {p : Nat} (n : Nat) (v v' : Nat → ZMod p) : Prop :=
  ∀ i, i < n → v' i = v i

/-- Point extension of an assignment at a single fresh wire. -/
def extendAt {p : Nat} (v : Nat → ZMod p) (n : Nat) (x : ZMod p) : Nat → ZMod p :=
  fun i => if i = n then x else v i

/-- Pure least-significant-first packed value of a value list. -/
def lsbL {p : Nat} (xs : List (ZMod p)) : ZMod p :=
  xs.foldr (fun x acc => x + 2 * acc) 0

/-- Pure most-significant-first packed value of a value list (the `from_bits`
convention). -/
def msbL {p : Nat} (xs : List (ZMod p)) : ZMod p :=
  xs.foldl (fun acc x => x + 2 * acc) 0

/-- Pure value of the `to_bits` chunk loop on a list of chunk value lists. -/
def loopL {p : Nat} : List (List (ZMod p)) → Nat → ZMod p
  | [], _ => 0
  | ch :: rest, i => lsbL ch * 2 ^ (8 * i) + loopL rest (i + 1)

/-! ## Claims C3, C4, C5: concrete consequences for to_bits -/

/-- Base assignment giving the reserved wires their constants and every other
wire 0. -/
def baseV (p : Nat) : Nat → ZMod p := fun i => if i = 0 then 1 else 0

/-! ## Claim C6: constraint-mode runs ignore wire values

In constraint mode no primitive reads or writes the wire arena, so the
emitted constraints depend only on the allocation counter — never on the
values held by the wires or passed to the allocators. -/

/-- A computation is wire-store-irrelevant in constraint mode: replacing the
arena before the run only replaces it in the result, and the mode is
preserved. -/
def Irr {p : Nat} {α : Type} (m : CSM p α) : Prop :=
  ∀ s w, s.witnessGen = false →
    m { s with wires := w } = ((m s).1, { (m s).2 with wires := w }) ∧
    ((m s).2).witnessGen = false

/-! ## Theorems -/

@[simp] theorem CSM.bind_apply {p : Nat} {α β : Type}
    (m : CSM p α) (f : α → CSM p β) (s : CS p) :
    (m >>= f) s = f (m s).1 (m s).2 := rfl

@[simp] theorem CSM.pure_apply {p : Nat} {α : Type} (a : α) (s : CS p) :
    (pure a : CSM p α) s = (a, s) := rfl

/-- Claim C7: `bit_xor(a, b)` emits exactly one rank-one constraint
`(−2a)·(b) = c − a − b`, so that in any assignment satisfying it the output
wire `c` holds `a + b − 2ab`; when both inputs are boolean this forces
`c = a ⊕ b ∈ {0, 1}`. -/
theorem C7_bit_xor_spec {p : Nat} (s : CS p) (a b : Nat)
    (hmode : s.witnessGen = false) :
    (bit_xor a b s).2.constraints =
      ⟨[(a, -2)], [(b, 1)], [((bit_xor a b s).1, 1), (a, -1), (b, -1)]⟩
        :: s.constraints ∧
    (∀ v : Nat → ZMod p,
      cHolds v ⟨[(a, -2)], [(b, 1)], [((bit_xor a b s).1, 1), (a, -1), (b, -1)]⟩ →
      v (bit_xor a b s).1 = xorVal (v a) (v b)) ∧
    (∀ v : Nat → ZMod p,
      cHolds v ⟨[(a, -2)], [(b, 1)], [((bit_xor a b s).1, 1), (a, -1), (b, -1)]⟩ →
      (v a = 0 ∨ v a = 1) → (v b = 0 ∨ v b = 1) →
      (v (bit_xor a b s).1 = 0 ∨ v (bit_xor a b s).1 = 1) ∧
      v (bit_xor a b s).1 = (if v a = v b then 0 else 1)) := by
  refine ⟨?_, ?_, ?_⟩
  · simp [bit_xor, constrain, hmode]
  · intro v hc
    have hval := by
      simpa only [cHolds, lcEval, List.map, List.sum_cons, List.sum_nil] using hc
    unfold xorVal
    linear_combination -hval
  · intro v hc ha hb
    have hval := by
      simpa only [cHolds, lcEval, List.map, List.sum_cons, List.sum_nil] using hc
    have hmain : v (bit_xor a b s).1 = xorVal (v a) (v b) := by
      unfold xorVal; linear_combination -hval
    rcases ha with ha | ha <;> rcases hb with hb | hb <;>
      rw [hmain, xorVal, ha, hb] <;> constructor
    · left; ring
    · rw [if_pos rfl]; ring
    · right; ring
    · split_ifs with h01
      · rw [← h01]; ring
      · ring
    · right; ring
    · split_ifs with h01
      · rw [h01]; ring
      · ring
    · left; ring
    · rw [if_pos rfl]; ring

/-- Witness for C7 at a concrete instance: `p = 5`, inputs on the reserved
one/zero wires (values 1 and 0); the output wire carries their XOR, 1. -/
theorem C7_bit_xor_spec_witness :
    vW7 (bit_xor 0 1 (initCS 5 false)).1 = 1 := by
  have h := (C7_bit_xor_spec (p := 5) (initCS 5 false) 0 1 rfl).2.2 vW7
    (by decide) (by decide) (by decide)
  rw [h.2]
  decide

/-! ## Claims C8 and C9: rotate_left_64 -/

theorem rotate_left_64_length (a : List Nat) (n : Nat) :
    (rotate_left_64 a n).length = 64 := by
  simp [rotate_left_64]

theorem rotate_left_64_getElem (a : List Nat) (n i : Nat) (h : i < (rotate_left_64 a n).length) :
    (rotate_left_64 a n)[i] = a.getD (usizeWrapSub i n % 64) 0 := by
  simp [rotate_left_64]

/-- Claim C8: for a 64-wire array and `n ∈ [0, 64)`, rotating left by `n` and
then by `64 − n` returns the original wire array (`rotate_left_64` is the pure
reindexing `out[i] = a[(i − n) mod 64]` and emits no constraints: it never
touches the constraint system state). -/
theorem C8_rotate_left_64_inverse (x : List Nat) (n : Nat)
    (hx : x.length = 64) (hn : n < 64) :
    rotate_left_64 (rotate_left_64 x n) (64 - n) = x := by
  apply List.ext_getElem
  · rw [rotate_left_64_length, hx]
  · intro i h1 h2
    rw [rotate_left_64_getElem]
    have hi : i < 64 := by rw [rotate_left_64_length] at h1; exact h1
    have hidx : usizeWrapSub i (64 - n) % 64 < 64 := Nat.mod_lt _ (by norm_num)
    rw [List.getD_eq_getElem _ _ (by rw [rotate_left_64_length]; exact hidx)]
    rw [rotate_left_64_getElem]
    have hidx2 : usizeWrapSub (usizeWrapSub i (64 - n) % 64) n % 64 = i := by
      unfold usizeWrapSub
      omega
    rw [hidx2]
    exact List.getD_eq_getElem _ _ (by rw [hx]; exact hi)

/-- Witness for C8 at a concrete input: the wire array `[0, …, 63]` rotated by
7 and then by 57. -/
theorem C8_rotate_left_64_inverse_witness :
    rotate_left_64 (rotate_left_64 (List.range 64) 7) 57 = List.range 64 :=
  C8_rotate_left_64_inverse (List.range 64) 7 (by decide) (by decide)

/-- Counterexample to claim C9 as stated: a rotation amount outside `[0, 64)`
is not surfaced as an abort; `rotate_left_64` with `n = 64` returns a result,
namely the input array unchanged. -/
theorem C9_counterexample :
    rotate_left_64 (List.range 64) 64 = List.range 64 := by decide

/-- Claim C9 amended: `rotate_left_64` performs no range check on the rotation
amount; for any `usize` value `n` the wrapped index `i.wrapping_sub(n) % 64`
is always in bounds (so the indexing cannot abort) and the gadget behaves as a
rotation by `n mod 64`. -/
theorem C9_amended_no_abort (a : List Nat) (n : Nat) (hn : n < 2 ^ 64) :
    (∀ i, usizeWrapSub i n % 64 < 64) ∧
    rotate_left_64 a n = rotate_left_64 a (n % 64) := by
  constructor
  · intro i; exact Nat.mod_lt _ (by norm_num)
  · unfold rotate_left_64
    apply List.map_congr_left
    intro i _
    have : usizeWrapSub i n % 64 = usizeWrapSub i (n % 64) % 64 := by
      unfold usizeWrapSub
      omega
    rw [this]

/-- Witness for C9's amended claim: rotation by 100 equals rotation by 36 on a
concrete 64-wire array. -/
theorem C9_amended_no_abort_witness :
    rotate_left_64 (List.range 64) 100 = rotate_left_64 (List.range 64) (100 % 64) :=
  (C9_amended_no_abort (List.range 64) 100 (by norm_num)).2

theorem satList_cons {p : Nat} (v : Nat → ZMod p) (c : Constraint p) (l : List (Constraint p)) :
    SatList v (c :: l) ↔ cHolds v c ∧ SatList v l :=
  List.forall_mem_cons

theorem satisfies_iff {p : Nat} (v : Nat → ZMod p) (l : List (Constraint p)) :
    Satisfies v l ↔ v csOne = 1 ∧ v csZero = 0 ∧ SatList v l := Iff.rfl

@[simp] theorem lcEval_nil {p : Nat} (v : Nat → ZMod p) : lcEval v [] = 0 := rfl

@[simp] theorem lcEval_cons {p : Nat} (v : Nat → ZMod p) (w : Nat) (k : ZMod p) (L : LinComb p) :
    lcEval v ((w, k) :: L) = k * v w + lcEval v L := by
  simp [lcEval]

theorem lcEval_neg_map {p : Nat} (v : Nat → ZMod p) (L : LinComb p) :
    lcEval v (L.map (fun t => (t.1, -t.2))) = - lcEval v L := by
  induction L with
  | nil => simp
  | cons t l ih =>
    obtain ⟨w, k⟩ := t
    simp only [List.map_cons, lcEval_cons, ih]
    ring

theorem constrain_run {p : Nat} (A B C : LinComb p) (s : CS p) (h : s.witnessGen = false) :
    constrain A B C s =
      (s.next,
       { s with
         next := s.next + 1
         constraints := ⟨A, B, (s.next, 1) :: C.map (fun t => (t.1, -t.2))⟩ :: s.constraints }) := by
  simp [constrain, h]

theorem constrain_mode {p : Nat} (A B C : LinComb p) (s : CS p) :
    ((constrain A B C s).2).witnessGen = s.witnessGen := by
  unfold constrain
  split <;> rfl

theorem mul_const_mode {p : Nat} (w : Nat) (k : ZMod p) (s : CS p) :
    ((mul_const w k s).2).witnessGen = s.witnessGen :=
  constrain_mode _ _ _ _

theorem wire_add_mode {p : Nat} (a b : Nat) (s : CS p) :
    ((wire_add a b s).2).witnessGen = s.witnessGen :=
  constrain_mode _ _ _ _

theorem wire_mul_mode {p : Nat} (a b : Nat) (s : CS p) :
    ((wire_mul a b s).2).witnessGen = s.witnessGen :=
  constrain_mode _ _ _ _

theorem sum_wires_mode {p : Nat} (terms : List (Nat × Bool)) (s : CS p) :
    ((sum_wires terms s).2).witnessGen = s.witnessGen :=
  constrain_mode _ _ _ _

theorem bit_xor_mode {p : Nat} (a b : Nat) (s : CS p) :
    ((bit_xor a b s).2).witnessGen = s.witnessGen :=
  constrain_mode _ _ _ _

theorem not_a_and_b_mode {p : Nat} (a b : Nat) (s : CS p) :
    ((not_a_and_b a b s).2).witnessGen = s.witnessGen :=
  constrain_mode _ _ _ _

theorem assert_equal_mode {p : Nat} (a b : Nat) (s : CS p) :
    ((assert_equal a b s).2).witnessGen = s.witnessGen := by
  unfold assert_equal
  split <;> rfl

theorem constrain_value {p : Nat} (v : Nat → ZMod p) (A B C : LinComb p) (s : CS p)
    (h : s.witnessGen = false)
    (hsat : SatList v ((constrain A B C s).2).constraints) :
    v (constrain A B C s).1 = lcEval v A * lcEval v B + lcEval v C ∧
    SatList v s.constraints := by
  rw [constrain_run A B C s h] at hsat ⊢
  obtain ⟨hc, hrest⟩ := (satList_cons _ _ _).mp hsat
  unfold cHolds at hc
  rw [lcEval_cons, lcEval_neg_map] at hc
  exact ⟨by linear_combination -hc, hrest⟩

theorem mul_const_value {p : Nat} (v : Nat → ZMod p) (w : Nat) (k : ZMod p) (s : CS p)
    (h : s.witnessGen = false) (hone : v csOne = 1)
    (hsat : SatList v ((mul_const w k s).2).constraints) :
    v (mul_const w k s).1 = k * v w ∧ SatList v s.constraints := by
  unfold mul_const at hsat ⊢
  have hone0 : v 0 = 1 := hone
  have hc := constrain_value v _ _ _ s h hsat
  refine ⟨?_, hc.2⟩
  rw [hc.1]
  simp only [lcEval_cons, lcEval_nil]
  rw [hone]
  ring

theorem wire_add_value {p : Nat} (v : Nat → ZMod p) (a b : Nat) (s : CS p)
    (h : s.witnessGen = false) (hone : v csOne = 1)
    (hsat : SatList v ((wire_add a b s).2).constraints) :
    v (wire_add a b s).1 = v a + v b ∧ SatList v s.constraints := by
  unfold wire_add at hsat ⊢
  have hone0 : v 0 = 1 := hone
  have hc := constrain_value v _ _ _ s h hsat
  refine ⟨?_, hc.2⟩
  rw [hc.1]
  simp only [lcEval_cons, lcEval_nil]
  rw [hone]
  ring

theorem wire_mul_value {p : Nat} (v : Nat → ZMod p) (a b : Nat) (s : CS p)
    (h : s.witnessGen = false)
    (hsat : SatList v ((wire_mul a b s).2).constraints) :
    v (wire_mul a b s).1 = v a * v b ∧ SatList v s.constraints := by
  unfold wire_mul at hsat ⊢
  have hc := constrain_value v _ _ _ s h hsat
  refine ⟨?_, hc.2⟩
  rw [hc.1]
  simp only [lcEval_cons, lcEval_nil]
  ring

theorem alloc_const_run {p : Nat} (c : ZMod p) (s : CS p) (h : s.witnessGen = false) :
    alloc_const c s =
      (s.next,
       { s with
         next := s.next + 1
         constraints := ⟨[(s.next, 1), (csOne, -c)], [(csOne, 1)], []⟩ :: s.constraints }) := by
  simp [alloc_const, h]

theorem alloc_const_mode {p : Nat} (c : ZMod p) (s : CS p) :
    ((alloc_const c s).2).witnessGen = s.witnessGen := by
  unfold alloc_const
  split <;> rfl

theorem alloc_const_value {p : Nat} (v : Nat → ZMod p) (c : ZMod p) (s : CS p)
    (h : s.witnessGen = false) (hone : v csOne = 1)
    (hsat : SatList v ((alloc_const c s).2).constraints) :
    v (alloc_const c s).1 = c ∧ SatList v s.constraints := by
  rw [alloc_const_run c s h] at hsat ⊢
  obtain ⟨hc, hrest⟩ := (satList_cons _ _ _).mp hsat
  unfold cHolds at hc
  simp only [lcEval_cons, lcEval_nil] at hc
  rw [hone] at hc
  refine ⟨?_, hrest⟩
  linear_combination hc

theorem assert_equal_run {p : Nat} (a b : Nat) (s : CS p) (h : s.witnessGen = false) :
    assert_equal a b s =
      ((), { s with
             constraints := ⟨[(a, (1 : ZMod p)), (b, -1)], [(csOne, 1)], []⟩ :: s.constraints }) := by
  simp [assert_equal, h]

theorem assert_equal_value {p : Nat} (v : Nat → ZMod p) (a b : Nat) (s : CS p)
    (h : s.witnessGen = false) (hone : v csOne = 1)
    (hsat : SatList v ((assert_equal a b s).2).constraints) :
    v a = v b ∧ SatList v s.constraints := by
  rw [assert_equal_run a b s h] at hsat
  obtain ⟨hc, hrest⟩ := (satList_cons _ _ _).mp hsat
  unfold cHolds at hc
  simp only [lcEval_cons, lcEval_nil] at hc
  rw [hone] at hc
  refine ⟨?_, hrest⟩
  linear_combination hc

theorem alloc_var_run {p : Nat} (x : ZMod p) (s : CS p) (h : s.witnessGen = false) :
    alloc_var x s = (s.next, { s with next := s.next + 1 }) := by
  simp [alloc_var, h]

theorem alloc_var_mode {p : Nat} (x : ZMod p) (s : CS p) :
    ((alloc_var x s).2).witnessGen = s.witnessGen := rfl

theorem lsbVal_reverse {p : Nat} (v : Nat → ZMod p) (l : List Nat) :
    lsbVal v l.reverse = msbVal v l := by
  unfold lsbVal msbVal
  rw [List.foldr_reverse]

theorem lcEval_signs {p : Nat} (v : Nat → ZMod p) (terms : List (Nat × Bool)) :
    lcEval v (terms.map (fun t => (t.1, if t.2 then (1 : ZMod p) else -1))) = wsum v terms := by
  induction terms with
  | nil => simp [wsum]
  | cons t l ih =>
    obtain ⟨w, sgn⟩ := t
    cases sgn <;> simp [wsum, List.map_cons, lcEval_cons] at ih ⊢ <;> rw [ih] <;> ring

theorem sum_wires_value {p : Nat} (v : Nat → ZMod p) (terms : List (Nat × Bool)) (s : CS p)
    (h : s.witnessGen = false) (hone : v csOne = 1)
    (hsat : SatList v ((sum_wires terms s).2).constraints) :
    v (sum_wires terms s).1 = wsum v terms ∧ SatList v s.constraints := by
  unfold sum_wires at hsat ⊢
  have hone0 : v 0 = 1 := hone
  have hc := constrain_value v _ _ _ s h hsat
  refine ⟨?_, hc.2⟩
  rw [hc.1, lcEval_signs]
  simp only [lcEval_cons, lcEval_nil]
  rw [hone]
  ring

theorem fromBitsTerms_mode {p : Nat} (bits : List Nat) (pow : ZMod p) (s : CS p) :
    ((fromBitsTerms bits pow s).2).witnessGen = s.witnessGen := by
  induction bits generalizing pow s with
  | nil => rfl
  | cons b l ih =>
    simp only [fromBitsTerms, CSM.bind_apply, CSM.pure_apply]
    rw [ih, mul_const_mode]

theorem fromBitsTerms_spec {p : Nat} (v : Nat → ZMod p) (bits : List Nat) (pow : ZMod p)
    (s : CS p) (h : s.witnessGen = false) (hone : v csOne = 1)
    (hsat : SatList v ((fromBitsTerms bits pow s).2).constraints) :
    wsum v (fromBitsTerms bits pow s).1 = pow * lsbVal v bits ∧ SatList v s.constraints := by
  induction bits generalizing pow s with
  | nil =>
    refine ⟨?_, hsat⟩
    simp [fromBitsTerms, wsum, lsbVal]
  | cons b l ih =>
    simp only [fromBitsTerms, CSM.bind_apply, CSM.pure_apply] at hsat ⊢
    have hmode1 : ((mul_const b pow s).2).witnessGen = false := by
      rw [mul_const_mode]; exact h
    have hrec := ih (pow * 2) (mul_const b pow s).2 hmode1 hsat
    have hm := mul_const_value v b pow s h hone hrec.2
    refine ⟨?_, hm.2⟩
    unfold wsum at hrec ⊢
    simp only [List.map_cons, List.sum_cons, if_true]
    rw [hm.1, hrec.1]
    unfold lsbVal
    simp only [List.foldr_cons]
    ring

theorem from_bits_mode {p : Nat} (bits : List Nat) (s : CS p) :
    ((from_bits bits s).2).witnessGen = s.witnessGen := by
  simp only [from_bits, CSM.bind_apply]
  rw [sum_wires_mode, fromBitsTerms_mode]

/-- In any assignment satisfying the constraints emitted by `from_bits`, the
returned wire holds the MSB-first packing of the input bit wires. -/
theorem from_bits_value {p : Nat} (v : Nat → ZMod p) (bits : List Nat) (s : CS p)
    (h : s.witnessGen = false) (hone : v csOne = 1)
    (hsat : SatList v ((from_bits bits s).2).constraints) :
    v (from_bits bits s).1 = msbVal v bits ∧ SatList v s.constraints := by
  simp only [from_bits, CSM.bind_apply] at hsat ⊢
  have hmode1 : ((fromBitsTerms bits.reverse (1 : ZMod p) s).2).witnessGen = false := by
    rw [fromBitsTerms_mode]; exact h
  have hs := sum_wires_value v _ _ hmode1 hone hsat
  have ht := fromBitsTerms_spec v bits.reverse 1 s h hone hs.2
  refine ⟨?_, ht.2⟩
  rw [hs.1, ht.1, one_mul, lsbVal_reverse]

theorem mapCSM_length {p : Nat} {α β : Type} (f : α → CSM p β) (l : List α) (s : CS p) :
    (mapCSM f l s).1.length = l.length := by
  induction l generalizing s with
  | nil => rfl
  | cons a l ih =>
    simp only [mapCSM, CSM.bind_apply, CSM.pure_apply, List.length_cons]
    rw [ih]

theorem mapCSM_mode {p : Nat} {α β : Type} (f : α → CSM p β)
    (hf : ∀ a s, ((f a s).2).witnessGen = s.witnessGen) (l : List α) (s : CS p) :
    ((mapCSM f l s).2).witnessGen = s.witnessGen := by
  induction l generalizing s with
  | nil => rfl
  | cons a l ih =>
    simp only [mapCSM, CSM.bind_apply, CSM.pure_apply]
    rw [ih, hf]

theorem toBitsAssignBits_oob {p : Nat} (bits : List Nat)
    (l : List (Nat × ZMod p)) (s : CS p)
    (h : ∃ pr ∈ l, bits.length ≤ pr.1) :
    toBitsAssignBits bits l s = none := by
  induction l generalizing s with
  | nil => obtain ⟨pr, hmem, _⟩ := h; exact absurd hmem (List.not_mem_nil pr)
  | cons hd tl ih =>
    obtain ⟨idx, bv⟩ := hd
    obtain ⟨pr, hmem, hlen⟩ := h
    rcases List.mem_cons.mp hmem with heq | hmem'
    · subst heq
      unfold toBitsAssignBits
      have : bits[idx]? = none := by
        rw [List.getElem?_eq_none_iff]
        exact hlen
      rw [this]
    · unfold toBitsAssignBits
      cases hb : bits[idx]? with
      | none => rfl
      | some w => exact ih _ ⟨pr, hmem', hlen⟩

theorem toBitsAssignBits_inbounds {p : Nat} (bits : List Nat)
    (l : List (Nat × ZMod p)) (s : CS p)
    (h : ∀ pr ∈ l, pr.1 < bits.length) :
    ∃ s', toBitsAssignBits bits l s = some s' := by
  induction l generalizing s with
  | nil => exact ⟨s, rfl⟩
  | cons hd tl ih =>
    obtain ⟨idx, bv⟩ := hd
    have hidx : idx < bits.length := h (idx, bv) (List.mem_cons_self _ _)
    unfold toBitsAssignBits
    have : ∃ w, bits[idx]? = some w := ⟨bits[idx], List.getElem?_eq_getElem hidx⟩
    obtain ⟨w, hw⟩ := this
    rw [hw]
    exact ih _ (fun pr hpr => h pr (List.mem_cons_of_mem _ hpr))

/-- Claim C10: in witness mode, `to_bits(a, k)` writes one bit wire for every
bit of the full big-endian byte decomposition of `a` (`8·nbytes` bits), so
whenever `k < 8·nbytes` — e.g. any `k < 256` over the repository's 256-bit
field — witness generation aborts with an out-of-bounds index instead of
returning `k` bits; `k ≥ 8·nbytes` is an undocumented precondition.  -/
theorem C10_to_bits_witness_abort {p : Nat} (nbytes : Nat) (a k : Nat) (s : CS p)
    (hw : s.witnessGen = true) :
    (k < 8 * nbytes → to_bits nbytes a k s = none) ∧
    (8 * nbytes ≤ k →
      ∃ bits s', to_bits nbytes a k s = some (bits, s') ∧ bits.length = k) := by
  have hlen : (mapCSM (fun _ => alloc_var (0 : ZMod p)) (List.range k) s).1.length = k := by
    rw [mapCSM_length, List.length_range]
  have hmode : ((mapCSM (fun _ => alloc_var (0 : ZMod p)) (List.range k) s).2).witnessGen = true := by
    rw [mapCSM_mode (fun _ => alloc_var (0 : ZMod p)) (fun a s => rfl)]
    exact hw
  have hblen : (bytesBE nbytes (tget (mapCSM (fun _ => alloc_var (0 : ZMod p)) (List.range k) s).2.wires a).val).length = nbytes := by
    rw [bytesBE, List.length_map, List.length_range]
  constructor
  · intro hk
    have hnb : 0 < nbytes := by omega
    simp only [to_bits]
    rw [if_pos hmode]
    have hoob : toBitsAssignBits
        (mapCSM (fun _ => alloc_var (0 : ZMod p)) (List.range k) s).1
        (toBitsWrites p (bytesBE nbytes (tget (mapCSM (fun _ => alloc_var (0 : ZMod p)) (List.range k) s).2.wires a).val))
        (mapCSM (fun _ => alloc_var (0 : ZMod p)) (List.range k) s).2 = none := by
      apply toBitsAssignBits_oob
      refine ⟨((nbytes - 1) * 8 + 7,
        bitOfByte p ((bytesBE nbytes (tget (mapCSM (fun _ => alloc_var (0 : ZMod p)) (List.range k) s).2.wires a).val).getD (nbytes - 1) 0) 7), ?_, ?_⟩
      · unfold toBitsWrites
        apply List.mem_flatMap.mpr
        refine ⟨nbytes - 1, ?_, ?_⟩
        · rw [hblen]; exact List.mem_range.mpr (by omega)
        · exact List.mem_map.mpr ⟨7, List.mem_range.mpr (by omega), rfl⟩
      · rw [hlen]; omega
    rw [hoob]
  · intro hk
    simp only [to_bits]
    rw [if_pos hmode]
    have hinb := toBitsAssignBits_inbounds
      (mapCSM (fun _ => alloc_var (0 : ZMod p)) (List.range k) s).1
      (toBitsWrites p (bytesBE nbytes (tget (mapCSM (fun _ => alloc_var (0 : ZMod p)) (List.range k) s).2.wires a).val))
      (mapCSM (fun _ => alloc_var (0 : ZMod p)) (List.range k) s).2
      (by
        intro pr hpr
        unfold toBitsWrites at hpr
        obtain ⟨i, hi, hpr2⟩ := List.mem_flatMap.mp hpr
        obtain ⟨j, hj, hpr3⟩ := List.mem_map.mp hpr2
        rw [hblen] at hi
        have hi' := List.mem_range.mp hi
        have hj' := List.mem_range.mp hj
        rw [← hpr3, hlen]
        simp only
        omega)
    obtain ⟨s2, hs2⟩ := hinb
    rw [hs2]
    exact ⟨_, _, rfl, hlen⟩

/-- Witness for C10: over the repository's field (`nbytes = 32`), requesting
`k = 255 < 256` bits aborts witness generation. -/
theorem C10_to_bits_witness_abort_witness :
    (initCS secqP true).witnessGen = true ∧
    to_bits 32 2 255 (initCS secqP true) = none :=
  ⟨rfl, (C10_to_bits_witness_abort 32 2 255 (initCS secqP true) rfl).1 (by norm_num)⟩

@[simp] theorem loopVal_nil {p : Nat} (v : Nat → ZMod p) (i : Nat) :
    loopVal v [] i = 0 := rfl

@[simp] theorem loopVal_cons {p : Nat} (v : Nat → ZMod p) (ch : List Nat)
    (rest : List (List Nat)) (i : Nat) :
    loopVal v (ch :: rest) i = lsbVal v ch * 2 ^ (8 * i) + loopVal v rest (i + 1) := rfl

theorem toBitsSumLoop_mode {p : Nat} (L : List (List Nat)) (i : Nat) (w : Nat) (s : CS p) :
    ((toBitsSumLoop L i w s).2).witnessGen = s.witnessGen := by
  induction L generalizing i w s with
  | nil => rfl
  | cons ch rest ih =>
    simp only [toBitsSumLoop, CSM.bind_apply]
    rw [ih, wire_add_mode, mul_const_mode, from_bits_mode]

theorem toBitsSumLoop_value {p : Nat} (v : Nat → ZMod p) (L : List (List Nat))
    (i : Nat) (w : Nat) (s : CS p) (h : s.witnessGen = false) (hone : v csOne = 1)
    (hsat : SatList v ((toBitsSumLoop L i w s).2).constraints) :
    v (toBitsSumLoop L i w s).1 = v w + loopVal v L i ∧ SatList v s.constraints := by
  induction L generalizing i w s with
  | nil =>
    refine ⟨?_, hsat⟩
    simp [toBitsSumLoop, loopVal]
  | cons ch rest ih =>
    simp only [toBitsSumLoop, CSM.bind_apply] at hsat ⊢
    set t1 := from_bits ch.reverse s with ht1
    set t2 := mul_const t1.1 ((2 : ZMod p) ^ (8 * i)) t1.2 with ht2
    set t3 := wire_add w t2.1 t2.2 with ht3
    have hm1 : (t1.2).witnessGen = false := by
      rw [ht1, from_bits_mode]; exact h
    have hm2 : (t2.2).witnessGen = false := by
      rw [ht2, mul_const_mode]; exact hm1
    have hm3 : (t3.2).witnessGen = false := by
      rw [ht3, wire_add_mode]; exact hm2
    have hrec := ih (i + 1) t3.1 t3.2 hm3 hsat
    have hadd := wire_add_value v w t2.1 t2.2 hm2 hone hrec.2
    have hmc := mul_const_value v t1.1 ((2 : ZMod p) ^ (8 * i)) t1.2 hm1 hone hadd.2
    have hfb := from_bits_value v ch.reverse s h hone hmc.2
    refine ⟨?_, hfb.2⟩
    rw [hrec.1, hadd.1, hmc.1, hfb.1]
    have hrev : msbVal v ch.reverse = lsbVal v ch := by
      have := lsbVal_reverse v ch.reverse
      rw [List.reverse_reverse] at this
      exact this.symm
    rw [hrev, loopVal_cons]
    ring

theorem mapCSM_alloc_constraints {p : Nat} (l : List Nat) (s : CS p) :
    ((mapCSM (fun _ => alloc_var (0 : ZMod p)) l s).2).constraints = s.constraints := by
  induction l generalizing s with
  | nil => rfl
  | cons a l ih =>
    simp only [mapCSM, CSM.bind_apply, CSM.pure_apply]
    rw [ih]
    rfl

theorem to_bits_con_eq {p : Nat} (nbytes a k : Nat) (s : CS p) (h : s.witnessGen = false) :
    to_bits nbytes a k s =
      some ((mapCSM (fun _ => alloc_var (0 : ZMod p)) (List.range k) s).1,
        (assert_equal a
          (toBitsSumLoop (chunks8 (mapCSM (fun _ => alloc_var (0 : ZMod p)) (List.range k) s).1).reverse 0 csZero
            (mapCSM (fun _ => alloc_var (0 : ZMod p)) (List.range k) s).2).1
          (toBitsSumLoop (chunks8 (mapCSM (fun _ => alloc_var (0 : ZMod p)) (List.range k) s).1).reverse 0 csZero
            (mapCSM (fun _ => alloc_var (0 : ZMod p)) (List.range k) s).2).2).2) := by
  have hm : ((mapCSM (fun _ => alloc_var (0 : ZMod p)) (List.range k) s).2).witnessGen = false := by
    rw [mapCSM_mode (fun _ => alloc_var (0 : ZMod p)) (fun a s => rfl)]
    exact h
  simp only [to_bits]
  rw [if_neg (by rw [hm]; simp)]

/-- Core soundness fact for `to_bits` in constraint mode: the emitted
constraints force the byte-chunked weighted sum of the bit-wire values to equal
the decomposed wire's value. -/
theorem to_bits_sum_value {p : Nat} (nbytes a k : Nat) (s : CS p)
    (h : s.witnessGen = false) :
    ∃ bits s', to_bits nbytes a k s = some (bits, s') ∧ bits.length = k ∧
      ∀ v : Nat → ZMod p, Satisfies v s'.constraints →
        v a = loopVal v (chunks8 bits).reverse 0 ∧ SatList v s.constraints := by
  rw [to_bits_con_eq nbytes a k s h]
  refine ⟨_, _, rfl, by rw [mapCSM_length, List.length_range], ?_⟩
  intro v hv
  obtain ⟨hone, hzero, hsat⟩ := hv
  have hm : ((mapCSM (fun _ => alloc_var (0 : ZMod p)) (List.range k) s).2).witnessGen = false := by
    rw [mapCSM_mode (fun _ => alloc_var (0 : ZMod p)) (fun a s => rfl)]
    exact h
  have hmloop : ((toBitsSumLoop (chunks8 (mapCSM (fun _ => alloc_var (0 : ZMod p)) (List.range k) s).1).reverse 0 csZero
      (mapCSM (fun _ => alloc_var (0 : ZMod p)) (List.range k) s).2).2).witnessGen = false := by
    rw [toBitsSumLoop_mode]; exact hm
  have hae := assert_equal_value v _ _ _ hmloop hone hsat
  have hloop := toBitsSumLoop_value v _ 0 csZero _ hm hone hae.2
  constructor
  · rw [hae.1, hloop.1, hzero, zero_add]
  · have := hloop.2
    rw [mapCSM_alloc_constraints] at this
    exact this

/-- Claim C3 amended: the constraints emitted by `to_bits(a, k)` force, in any
satisfying assignment, the byte-chunked weighted sum of the bit-wire values to
equal `a` exactly (chunks of 8 bits taken from the front, the last chunk being
the least significant, each chunk packed little-endian-within-chunk); the bit
values are neither constrained to `{0, 1}` nor uniquely determined, and the
aggregate equals `a` itself, not `a mod 2^k`. -/
theorem C3_amended_to_bits_sum {p : Nat} (nbytes a k : Nat) (s : CS p)
    (h : s.witnessGen = false) :
    ∃ bits s', to_bits nbytes a k s = some (bits, s') ∧ bits.length = k ∧
      ∀ v : Nat → ZMod p, Satisfies v s'.constraints →
        v a = loopVal v (chunks8 bits).reverse 0 ∧ SatList v s.constraints :=
  to_bits_sum_value nbytes a k s h

/-- Witness for the amended C3 over the repository's field at `k = 16`. -/
theorem C3_amended_to_bits_sum_witness :
    ((initCS secqP false).witnessGen = false) ∧
    ∃ bits s', to_bits 32 2 16 (initCS secqP false) = some (bits, s') ∧ bits.length = 16 ∧
      ∀ v : Nat → ZMod secqP, Satisfies v s'.constraints →
        v 2 = loopVal v (chunks8 bits).reverse 0 ∧ SatList v (initCS secqP false).constraints :=
  ⟨rfl, C3_amended_to_bits_sum 32 2 16 (initCS secqP false) rfl⟩

theorem lcBound_mono {p : Nat} {n m : Nat} {L : LinComb p} (h : n ≤ m)
    (hL : lcBound n L) : lcBound m L :=
  fun t ht => lt_of_lt_of_le (hL t ht) h

theorem cBound_mono {p : Nat} {n m : Nat} {c : Constraint p} (h : n ≤ m)
    (hc : cBound n c) : cBound m c :=
  ⟨lcBound_mono h hc.1, lcBound_mono h hc.2.1, lcBound_mono h hc.2.2⟩

theorem agreeBelow_mono {p : Nat} {n m : Nat} {v v' : Nat → ZMod p} (h : n ≤ m)
    (ha : agreeBelow m v v') : agreeBelow n v v' :=
  fun i hi => ha i (lt_of_lt_of_le hi h)

theorem agreeBelow_trans {p : Nat} {n m : Nat} {v v₁ v₂ : Nat → ZMod p} (h : n ≤ m)
    (h1 : agreeBelow n v v₁) (h2 : agreeBelow m v₁ v₂) : agreeBelow n v v₂ :=
  fun i hi => (h2 i (lt_of_lt_of_le hi h)).trans (h1 i hi)

theorem lcEval_agree {p : Nat} {n : Nat} {L : LinComb p} {v v' : Nat → ZMod p}
    (hL : lcBound n L) (ha : agreeBelow n v v') : lcEval v' L = lcEval v L := by
  induction L with
  | nil => rfl
  | cons t l ih =>
    obtain ⟨w, k⟩ := t
    have hw : w < n := hL (w, k) (List.mem_cons_self _ _)
    rw [lcEval_cons, lcEval_cons, ha w hw,
      ih (fun t ht => hL t (List.mem_cons_of_mem _ ht))]

theorem cHolds_agree {p : Nat} {n : Nat} {c : Constraint p} {v v' : Nat → ZMod p}
    (hc : cBound n c) (ha : agreeBelow n v v') (h : cHolds v c) : cHolds v' c := by
  unfold cHolds at h ⊢
  rw [lcEval_agree hc.1 ha, lcEval_agree hc.2.1 ha, lcEval_agree hc.2.2 ha]
  exact h

theorem csOne_eq : csOne = 0 := rfl

theorem csZero_eq : csZero = 1 := rfl

theorem csOne_lt {n : Nat} (h : 2 ≤ n) : (csOne : Nat) < n := by
  show 0 < n
  omega

theorem csZero_lt {n : Nat} (h : 2 ≤ n) : (csZero : Nat) < n := by
  show 1 < n
  omega

theorem satisfies_agree {p : Nat} {s : CS p} {v v' : Nat → ZMod p}
    (hb : csBound s) (ha : agreeBelow s.next v v')
    (hv : Satisfies v s.constraints) : Satisfies v' s.constraints := by
  obtain ⟨h2, hbc⟩ := hb
  refine ⟨?_, ?_, fun c hc => cHolds_agree (hbc c hc) ha (hv.2.2 c hc)⟩
  · rw [csOne_eq, ha 0 (by omega)]; exact hv.1
  · rw [csZero_eq, ha 1 (by omega)]; exact hv.2.1

theorem extendAt_agree {p : Nat} (v : Nat → ZMod p) (n : Nat) (x : ZMod p) :
    agreeBelow n v (extendAt v n x) := by
  intro i hi
  unfold extendAt
  rw [if_neg (by omega)]

@[simp] theorem extendAt_same {p : Nat} (v : Nat → ZMod p) (n : Nat) (x : ZMod p) :
    extendAt v n x n = x := by
  unfold extendAt
  rw [if_pos rfl]

theorem constrain_complete {p : Nat} (A B C : LinComb p) (s : CS p)
    (h : s.witnessGen = false) (hA : lcBound s.next A) (hB : lcBound s.next B)
    (hC : lcBound s.next C) (hb : csBound s) :
    ((constrain A B C s).1 = s.next ∧ ((constrain A B C s).2).next = s.next + 1 ∧
      ((constrain A B C s).2).witnessGen = false ∧ csBound (constrain A B C s).2) ∧
    ∀ v : Nat → ZMod p, Satisfies v s.constraints →
      ∃ v', agreeBelow s.next v v' ∧ Satisfies v' ((constrain A B C s).2).constraints ∧
        v' (constrain A B C s).1 = lcEval v A * lcEval v B + lcEval v C := by
  obtain ⟨h2, hbc⟩ := hb
  rw [constrain_run A B C s h]
  dsimp only
  refine ⟨⟨rfl, rfl, h, ⟨(by omega : 2 ≤ s.next + 1), ?_⟩⟩, ?_⟩
  · intro c hc
    rcases List.mem_cons.mp hc with hceq | hcold
    · subst hceq
      refine ⟨lcBound_mono (Nat.le_succ _) hA, lcBound_mono (Nat.le_succ _) hB, ?_⟩
      intro t ht
      rcases List.mem_cons.mp ht with rfl | ht'
      · exact Nat.lt_succ_self s.next
      · obtain ⟨tt, htt, rfl⟩ := List.mem_map.mp ht'
        exact lt_of_lt_of_le (hC tt htt) (Nat.le_succ _)
    · exact cBound_mono (Nat.le_succ _) (hbc c hcold)
  · intro v hv
    refine ⟨extendAt v s.next (lcEval v A * lcEval v B + lcEval v C),
      extendAt_agree v s.next _, ⟨?_, ?_, ?_⟩, extendAt_same v s.next _⟩
    · rw [csOne_eq, extendAt_agree v s.next _ 0 (by omega)]
      exact hv.1
    · rw [csZero_eq, extendAt_agree v s.next _ 1 (by omega)]
      exact hv.2.1
    · intro c hc
      rcases List.mem_cons.mp hc with hceq | hcold
      · subst hceq
        unfold cHolds
        have hAe := lcEval_agree hA (extendAt_agree v s.next (lcEval v A * lcEval v B + lcEval v C))
        have hBe := lcEval_agree hB (extendAt_agree v s.next (lcEval v A * lcEval v B + lcEval v C))
        have hCe :
            lcEval (extendAt v s.next (lcEval v A * lcEval v B + lcEval v C))
              (C.map (fun t => (t.1, -t.2))) = - lcEval v C := by
          rw [lcEval_neg_map, lcEval_agree hC (extendAt_agree v s.next _)]
        simp only [lcEval_cons, hAe, hBe]
        rw [hCe, extendAt_same]
        ring
      · refine cHolds_agree ?_ (extendAt_agree v s.next _) (hv.2.2 c hcold)
        exact hbc c hcold

theorem lcBound_nil {p : Nat} (n : Nat) : lcBound n ([] : LinComb p) :=
  fun t ht => absurd ht (List.not_mem_nil t)

theorem lcBound_cons {p : Nat} {n : Nat} {t : Nat × ZMod p} {L : LinComb p}
    (h : t.1 < n) (hL : lcBound n L) : lcBound n (t :: L) := by
  intro u hu
  rcases List.mem_cons.mp hu with rfl | hu'
  · exact h
  · exact hL u hu'

theorem lsbVal_map {p : Nat} (v : Nat → ZMod p) (l : List Nat) :
    lsbVal v l = lsbL (l.map v) := by
  unfold lsbVal lsbL
  rw [List.foldr_map]

theorem msbVal_map {p : Nat} (v : Nat → ZMod p) (l : List Nat) :
    msbVal v l = msbL (l.map v) := by
  unfold msbVal msbL
  rw [List.foldl_map]

theorem loopVal_map {p : Nat} (v : Nat → ZMod p) (L : List (List Nat)) (i : Nat) :
    loopVal v L i = loopL (L.map (List.map v)) i := by
  induction L generalizing i with
  | nil => rfl
  | cons ch rest ih =>
    simp only [List.map_cons, loopVal_cons, loopL]
    rw [ih, lsbVal_map]

theorem map_agree {p : Nat} {n : Nat} {v v' : Nat → ZMod p} {l : List Nat}
    (hl : ∀ w ∈ l, w < n) (ha : agreeBelow n v v') : l.map v' = l.map v :=
  List.map_congr_left (fun w hw => ha w (hl w hw))

theorem lsbVal_agree {p : Nat} {n : Nat} {v v' : Nat → ZMod p} {l : List Nat}
    (hl : ∀ w ∈ l, w < n) (ha : agreeBelow n v v') : lsbVal v' l = lsbVal v l := by
  rw [lsbVal_map, lsbVal_map, map_agree hl ha]

theorem msbVal_agree {p : Nat} {n : Nat} {v v' : Nat → ZMod p} {l : List Nat}
    (hl : ∀ w ∈ l, w < n) (ha : agreeBelow n v v') : msbVal v' l = msbVal v l := by
  rw [msbVal_map, msbVal_map, map_agree hl ha]

theorem loopVal_agree {p : Nat} {n : Nat} {v v' : Nat → ZMod p} {L : List (List Nat)}
    (hL : ∀ ch ∈ L, ∀ w ∈ ch, w < n) (ha : agreeBelow n v v') :
    loopVal v' L i = loopVal v L i := by
  induction L generalizing i with
  | nil => rfl
  | cons ch rest ih =>
    simp only [loopVal_cons]
    rw [lsbVal_agree (hL ch (List.mem_cons_self _ _)) ha,
      ih (fun c hc w hw => hL c (List.mem_cons_of_mem _ hc) w hw)]

theorem chunksAux_mem {α : Type} (fuel : Nat) (l : List α) :
    ∀ ch ∈ chunksAux fuel l, ∀ x ∈ ch, x ∈ l := by
  induction fuel generalizing l with
  | zero => intro ch hch; exact absurd hch (List.not_mem_nil ch)
  | succ fuel ih =>
    intro ch hch x hx
    cases l with
    | nil => exact absurd hch (List.not_mem_nil ch)
    | cons a t =>
      rw [chunksAux] at hch
      rcases List.mem_cons.mp hch with rfl | hch'
      · exact List.mem_of_mem_take hx
      · exact List.mem_of_mem_drop (ih _ ch hch' x hx)

theorem chunks8_mem {α : Type} (l : List α) :
    ∀ ch ∈ chunks8 l, ∀ x ∈ ch, x ∈ l :=
  chunksAux_mem l.length l

theorem chunksAux_map {α β : Type} (f : α → β) (fuel : Nat) (l : List α) :
    chunksAux fuel (l.map f) = (chunksAux fuel l).map (List.map f) := by
  induction fuel generalizing l with
  | zero => rfl
  | succ fuel ih =>
    cases l with
    | nil => rfl
    | cons a t =>
      show chunksAux (fuel + 1) (f a :: t.map f) = _
      rw [chunksAux, chunksAux, List.map_cons]
      rw [show f a :: t.map f = (a :: t).map f from rfl]
      rw [← List.map_take, ← List.map_drop, ih]

theorem chunks8_map {p : Nat} (v : Nat → ZMod p) (l : List Nat) :
    chunks8 (l.map v) = (chunks8 l).map (List.map v) := by
  unfold chunks8
  rw [List.length_map, chunksAux_map]

/-! ### Completeness of the individual primitives -/

theorem mul_const_complete {p : Nat} (w : Nat) (k : ZMod p) (s : CS p)
    (h : s.witnessGen = false) (hw : w < s.next) (hb : csBound s) :
    ((mul_const w k s).1 = s.next ∧ ((mul_const w k s).2).next = s.next + 1 ∧
      ((mul_const w k s).2).witnessGen = false ∧ csBound (mul_const w k s).2) ∧
    ∀ v : Nat → ZMod p, Satisfies v s.constraints →
      ∃ v', agreeBelow s.next v v' ∧ Satisfies v' ((mul_const w k s).2).constraints ∧
        v' (mul_const w k s).1 = k * v w := by
  have h0 : (csOne : Nat) < s.next := csOne_lt hb.1
  have hc := constrain_complete [(w, k)] [(csOne, 1)] [] s h
    (lcBound_cons hw (lcBound_nil _)) (lcBound_cons h0 (lcBound_nil _)) (lcBound_nil _) hb
  refine ⟨hc.1, ?_⟩
  intro v hv
  obtain ⟨v', hag, hsat, hval⟩ := hc.2 v hv
  refine ⟨v', hag, hsat, ?_⟩
  show v' (constrain [(w, k)] [(csOne, 1)] [] s).1 = _
  rw [hval]
  simp only [lcEval_cons, lcEval_nil]
  rw [hv.1]
  ring

theorem wire_add_complete {p : Nat} (a b : Nat) (s : CS p)
    (h : s.witnessGen = false) (ha : a < s.next) (hbw : b < s.next) (hb : csBound s) :
    ((wire_add a b s).1 = s.next ∧ ((wire_add a b s).2).next = s.next + 1 ∧
      ((wire_add a b s).2).witnessGen = false ∧ csBound (wire_add a b s).2) ∧
    ∀ v : Nat → ZMod p, Satisfies v s.constraints →
      ∃ v', agreeBelow s.next v v' ∧ Satisfies v' ((wire_add a b s).2).constraints ∧
        v' (wire_add a b s).1 = v a + v b := by
  have h0 : (csOne : Nat) < s.next := csOne_lt hb.1
  have hc := constrain_complete [(a, (1 : ZMod p)), (b, 1)] [(csOne, 1)] [] s h
    (lcBound_cons ha (lcBound_cons hbw (lcBound_nil _))) (lcBound_cons h0 (lcBound_nil _))
    (lcBound_nil _) hb
  refine ⟨hc.1, ?_⟩
  intro v hv
  obtain ⟨v', hag, hsat, hval⟩ := hc.2 v hv
  refine ⟨v', hag, hsat, ?_⟩
  show v' (constrain [(a, (1 : ZMod p)), (b, 1)] [(csOne, 1)] [] s).1 = _
  rw [hval]
  simp only [lcEval_cons, lcEval_nil]
  rw [hv.1]
  ring

theorem wire_mul_complete {p : Nat} (a b : Nat) (s : CS p)
    (h : s.witnessGen = false) (ha : a < s.next) (hbw : b < s.next) (hb : csBound s) :
    ((wire_mul a b s).1 = s.next ∧ ((wire_mul a b s).2).next = s.next + 1 ∧
      ((wire_mul a b s).2).witnessGen = false ∧ csBound (wire_mul a b s).2) ∧
    ∀ v : Nat → ZMod p, Satisfies v s.constraints →
      ∃ v', agreeBelow s.next v v' ∧ Satisfies v' ((wire_mul a b s).2).constraints ∧
        v' (wire_mul a b s).1 = v a * v b := by
  have hc := constrain_complete [(a, (1 : ZMod p))] [(b, 1)] [] s h
    (lcBound_cons ha (lcBound_nil _)) (lcBound_cons hbw (lcBound_nil _)) (lcBound_nil _) hb
  refine ⟨hc.1, ?_⟩
  intro v hv
  obtain ⟨v', hag, hsat, hval⟩ := hc.2 v hv
  refine ⟨v', hag, hsat, ?_⟩
  show v' (constrain [(a, (1 : ZMod p))] [(b, 1)] [] s).1 = _
  rw [hval]
  simp only [lcEval_cons, lcEval_nil]
  ring

theorem sum_wires_complete {p : Nat} (terms : List (Nat × Bool)) (s : CS p)
    (h : s.witnessGen = false) (ht : ∀ t ∈ terms, t.1 < s.next) (hb : csBound s) :
    ((sum_wires terms s).1 = s.next ∧ ((sum_wires terms s).2).next = s.next + 1 ∧
      ((sum_wires terms s).2).witnessGen = false ∧ csBound (sum_wires terms s).2) ∧
    ∀ v : Nat → ZMod p, Satisfies v s.constraints →
      ∃ v', agreeBelow s.next v v' ∧ Satisfies v' ((sum_wires terms s).2).constraints ∧
        v' (sum_wires terms s).1 = wsum v terms := by
  have h0 : (csOne : Nat) < s.next := csOne_lt hb.1
  have hmap : lcBound s.next (terms.map (fun t => (t.1, if t.2 then (1 : ZMod p) else -1))) := by
    intro u hu
    obtain ⟨t, htm, rfl⟩ := List.mem_map.mp hu
    exact ht t htm
  have hc := constrain_complete (terms.map (fun t => (t.1, if t.2 then (1 : ZMod p) else -1)))
    [(csOne, 1)] [] s h hmap (lcBound_cons h0 (lcBound_nil _)) (lcBound_nil _) hb
  refine ⟨hc.1, ?_⟩
  intro v hv
  obtain ⟨v', hag, hsat, hval⟩ := hc.2 v hv
  refine ⟨v', hag, hsat, ?_⟩
  show v' (constrain (terms.map (fun t => (t.1, if t.2 then (1 : ZMod p) else -1))) [(csOne, 1)] [] s).1 = _
  rw [hval, lcEval_signs]
  simp only [lcEval_cons, lcEval_nil]
  rw [hv.1]
  ring

theorem alloc_var_complete {p : Nat} (x init : ZMod p) (s : CS p)
    (h : s.witnessGen = false) (hb : csBound s) :
    ((alloc_var init s).1 = s.next ∧ ((alloc_var init s).2).next = s.next + 1 ∧
      ((alloc_var init s).2).witnessGen = false ∧ csBound (alloc_var init s).2 ∧
      ((alloc_var init s).2).constraints = s.constraints) ∧
    ∀ v : Nat → ZMod p, Satisfies v s.constraints →
      ∃ v', agreeBelow s.next v v' ∧ Satisfies v' ((alloc_var init s).2).constraints ∧
        v' (alloc_var init s).1 = x := by
  have h2 : 2 ≤ s.next := hb.1
  have hbc : ∀ c ∈ s.constraints, cBound s.next c := hb.2
  rw [alloc_var_run init s h]
  refine ⟨⟨rfl, rfl, h, ⟨le_trans h2 (Nat.le_succ _), ?_⟩, rfl⟩, ?_⟩
  · intro c hc
    exact cBound_mono (Nat.le_succ _) (hbc c hc)
  · intro v hv
    refine ⟨extendAt v s.next x, extendAt_agree v s.next x, ?_, extendAt_same v s.next x⟩
    exact satisfies_agree (s := s) ⟨h2, hbc⟩ (extendAt_agree v s.next x) hv

theorem alloc_const_complete {p : Nat} (c : ZMod p) (s : CS p)
    (h : s.witnessGen = false) (hb : csBound s) :
    ((alloc_const c s).1 = s.next ∧ ((alloc_const c s).2).next = s.next + 1 ∧
      ((alloc_const c s).2).witnessGen = false ∧ csBound (alloc_const c s).2) ∧
    ∀ v : Nat → ZMod p, Satisfies v s.constraints →
      ∃ v', agreeBelow s.next v v' ∧ Satisfies v' ((alloc_const c s).2).constraints ∧
        v' (alloc_const c s).1 = c := by
  obtain ⟨h2, hbc⟩ := hb
  rw [alloc_const_run c s h]
  dsimp only
  refine ⟨⟨rfl, rfl, h, ⟨le_trans h2 (Nat.le_succ _), ?_⟩⟩, ?_⟩
  · intro cc hcc
    rcases List.mem_cons.mp hcc with hceq | hcold
    · subst hceq
      refine ⟨?_, ?_, lcBound_nil _⟩
      · exact lcBound_cons (Nat.lt_succ_self _)
          (lcBound_cons (csOne_lt (le_trans h2 (Nat.le_succ _))) (lcBound_nil _))
      · exact lcBound_cons (csOne_lt (le_trans h2 (Nat.le_succ _))) (lcBound_nil _)
    · exact cBound_mono (Nat.le_succ _) (hbc cc hcold)
  · intro v hv
    refine ⟨extendAt v s.next c, extendAt_agree v s.next c, ⟨?_, ?_, ?_⟩, extendAt_same v s.next c⟩
    · rw [csOne_eq, extendAt_agree v s.next c 0 (by omega)]
      exact hv.1
    · rw [csZero_eq, extendAt_agree v s.next c 1 (by omega)]
      exact hv.2.1
    · intro cc hcc
      rcases List.mem_cons.mp hcc with hceq | hcold
      · subst hceq
        unfold cHolds
        simp only [lcEval_cons, lcEval_nil, extendAt_same]
        rw [csOne_eq, extendAt_agree v s.next c 0 (by omega)]
        have hone : v 0 = 1 := hv.1
        rw [hone]
        ring
      · exact cHolds_agree (hbc cc hcold) (extendAt_agree v s.next c) (hv.2.2 cc hcold)

theorem assert_equal_complete {p : Nat} (a b : Nat) (s : CS p)
    (h : s.witnessGen = false) (ha : a < s.next) (hbw : b < s.next) (hb : csBound s) :
    (((assert_equal a b s).2).next = s.next ∧
      ((assert_equal a b s).2).witnessGen = false ∧ csBound (assert_equal a b s).2) ∧
    ∀ v : Nat → ZMod p, Satisfies v s.constraints → v a = v b →
      Satisfies v ((assert_equal a b s).2).constraints := by
  obtain ⟨h2, hbc⟩ := hb
  rw [assert_equal_run a b s h]
  dsimp only
  refine ⟨⟨rfl, h, ⟨h2, ?_⟩⟩, ?_⟩
  · intro cc hcc
    rcases List.mem_cons.mp hcc with hceq | hcold
    · subst hceq
      refine ⟨lcBound_cons ha (lcBound_cons hbw (lcBound_nil _)), ?_, lcBound_nil _⟩
      exact lcBound_cons (csOne_lt h2) (lcBound_nil _)
    · exact hbc cc hcold
  · intro v hv heq
    refine ⟨hv.1, hv.2.1, ?_⟩
    intro cc hcc
    rcases List.mem_cons.mp hcc with hceq | hcold
    · subst hceq
      unfold cHolds
      simp only [lcEval_cons, lcEval_nil]
      rw [heq, hv.1]
      ring
    · exact hv.2.2 cc hcold

/-! ### Completeness of the composite gadgets -/

theorem mapCSM_alloc_next {p : Nat} (l : List Nat) (s : CS p) :
    ((mapCSM (fun _ => alloc_var (0 : ZMod p)) l s).2).next = s.next + l.length := by
  induction l generalizing s with
  | nil => rfl
  | cons a t ih =>
    simp only [mapCSM, CSM.bind_apply, CSM.pure_apply]
    rw [ih]
    show s.next + 1 + t.length = s.next + (t.length + 1)
    omega

theorem mapCSM_alloc_wires {p : Nat} (l : List Nat) (s : CS p) :
    (mapCSM (fun _ => alloc_var (0 : ZMod p)) l s).1 =
      (List.range l.length).map (fun i => s.next + i) := by
  induction l generalizing s with
  | nil => rfl
  | cons a t ih =>
    simp only [mapCSM, CSM.bind_apply, CSM.pure_apply]
    rw [ih]
    show s.next :: (List.range t.length).map (fun i => s.next + 1 + i) =
      (List.range (t.length + 1)).map (fun i => s.next + i)
    rw [List.range_succ_eq_map, List.map_cons, List.map_map]
    refine List.cons_eq_cons.mpr ⟨by omega, ?_⟩
    apply List.map_congr_left
    intro i _
    show s.next + 1 + i = s.next + (i + 1)
    omega

theorem mapAlloc_csBound {p : Nat} (l : List Nat) (s : CS p) (hb : csBound s) :
    csBound ((mapCSM (fun _ => alloc_var (0 : ZMod p)) l s).2) := by
  obtain ⟨h2, hbc⟩ := hb
  constructor
  · rw [mapCSM_alloc_next]; omega
  · intro c hc
    rw [mapCSM_alloc_constraints] at hc
    refine cBound_mono ?_ (hbc c hc)
    rw [mapCSM_alloc_next]; omega

theorem mapAlloc_complete {p : Nat} (xs : List (ZMod p)) (l : List Nat) (s : CS p)
    (hb : csBound s) :
    ∀ v : Nat → ZMod p, Satisfies v s.constraints →
      ∃ v', agreeBelow s.next v v' ∧
        Satisfies v' ((mapCSM (fun _ => alloc_var (0 : ZMod p)) l s).2).constraints ∧
        ∀ i, i < l.length → v' (s.next + i) = xs.getD i 0 := by
  intro v hv
  refine ⟨fun j => if s.next ≤ j ∧ j < s.next + l.length then xs.getD (j - s.next) 0 else v j,
    ?_, ?_, ?_⟩
  · intro i hi
    show (if s.next ≤ i ∧ i < s.next + l.length then xs.getD (i - s.next) 0 else v i) = v i
    rw [if_neg (by omega)]
  · rw [mapCSM_alloc_constraints]
    refine satisfies_agree (s := s) hb ?_ hv
    intro i hi
    show (if s.next ≤ i ∧ i < s.next + l.length then xs.getD (i - s.next) 0 else v i) = v i
    rw [if_neg (by omega)]
  · intro i hi
    show (if s.next ≤ s.next + i ∧ s.next + i < s.next + l.length then xs.getD (s.next + i - s.next) 0
      else v (s.next + i)) = xs.getD i 0
    rw [if_pos (by omega)]
    congr 1
    omega

theorem fromBitsTerms_complete {p : Nat} (bits : List Nat) (pow : ZMod p) (s : CS p)
    (h : s.witnessGen = false) (hbits : ∀ w ∈ bits, w < s.next) (hb : csBound s) :
    (((fromBitsTerms bits pow s).2).next = s.next + bits.length ∧
      ((fromBitsTerms bits pow s).2).witnessGen = false ∧
      csBound (fromBitsTerms bits pow s).2 ∧
      (∀ t ∈ (fromBitsTerms bits pow s).1, t.1 < ((fromBitsTerms bits pow s).2).next)) ∧
    ∀ v : Nat → ZMod p, Satisfies v s.constraints →
      ∃ v', agreeBelow s.next v v' ∧ Satisfies v' ((fromBitsTerms bits pow s).2).constraints ∧
        wsum v' (fromBitsTerms bits pow s).1 = pow * lsbVal v bits := by
  induction bits generalizing pow s with
  | nil =>
    refine ⟨⟨rfl, h, hb, ?_⟩, ?_⟩
    · intro t ht
      exact absurd ht (List.not_mem_nil t)
    · intro v hv
      refine ⟨v, fun i hi => rfl, hv, ?_⟩
      simp [fromBitsTerms, wsum, lsbVal]
  | cons b l ih =>
    have hmc := mul_const_complete b pow s h (hbits b (List.mem_cons_self _ _)) hb
    obtain ⟨⟨hm_out, hm_next, hm_mode, hm_bound⟩, hm_ext⟩ := hmc
    have hbits1 : ∀ w ∈ l, w < ((mul_const b pow s).2).next := by
      intro w hw
      rw [hm_next]
      exact lt_trans (hbits w (List.mem_cons_of_mem _ hw)) (Nat.lt_succ_self _)
    have hrec := ih (pow * 2) (mul_const b pow s).2 hm_mode hbits1 hm_bound
    obtain ⟨⟨hr_next, hr_mode, hr_bound, hr_terms⟩, hr_ext⟩ := hrec
    have hnext1 : s.next ≤ ((mul_const b pow s).2).next := by rw [hm_next]; omega
    constructor
    · simp only [fromBitsTerms, CSM.bind_apply, CSM.pure_apply]
      refine ⟨?_, hr_mode, hr_bound, ?_⟩
      · rw [hr_next, hm_next]
        show s.next + 1 + l.length = s.next + (l.length + 1)
        omega
      · intro t ht
        rcases List.mem_cons.mp ht with rfl | ht'
        · show (mul_const b pow s).1 < _
          rw [hm_out, hr_next, hm_next]
          omega
        · exact hr_terms t ht'
    · intro v hv
      obtain ⟨v₁, hag1, hsat1, hval1⟩ := hm_ext v hv
      obtain ⟨v₂, hag2, hsat2, hval2⟩ := hr_ext v₁ hsat1
      simp only [fromBitsTerms, CSM.bind_apply, CSM.pure_apply]
      refine ⟨v₂, agreeBelow_trans hnext1 hag1 hag2, hsat2, ?_⟩
      unfold wsum
      simp only [List.map_cons, List.sum_cons, if_true]
      have hv2m : v₂ (mul_const b pow s).1 = pow * v b := by
        rw [hag2 _ (by rw [hm_out, hm_next]; omega), hval1]
      have htail : (List.map (fun t => if t.2 then v₂ t.1 else -v₂ t.1)
          (fromBitsTerms l (pow * 2) (mul_const b pow s).2).1).sum = (pow * 2) * lsbVal v₁ l :=
        hval2
      rw [hv2m, htail,
        lsbVal_agree (fun w hw => hbits w (List.mem_cons_of_mem _ hw)) hag1]
      unfold lsbVal
      simp only [List.foldr_cons]
      ring

theorem from_bits_complete {p : Nat} (bits : List Nat) (s : CS p)
    (h : s.witnessGen = false) (hbits : ∀ w ∈ bits, w < s.next) (hb : csBound s) :
    (s.next ≤ ((from_bits bits s).2).next ∧
      (from_bits bits s).1 < ((from_bits bits s).2).next ∧
      ((from_bits bits s).2).witnessGen = false ∧ csBound (from_bits bits s).2) ∧
    ∀ v : Nat → ZMod p, Satisfies v s.constraints →
      ∃ v', agreeBelow s.next v v' ∧ Satisfies v' ((from_bits bits s).2).constraints ∧
        v' (from_bits bits s).1 = msbVal v bits := by
  have hrev : ∀ w ∈ bits.reverse, w < s.next := by
    intro w hw
    exact hbits w (List.mem_reverse.mp hw)
  have hft := fromBitsTerms_complete bits.reverse 1 s h hrev hb
  obtain ⟨⟨hf_next, hf_mode, hf_bound, hf_terms⟩, hf_ext⟩ := hft
  have hsw := sum_wires_complete (fromBitsTerms bits.reverse (1 : ZMod p) s).1
    (fromBitsTerms bits.reverse (1 : ZMod p) s).2 hf_mode hf_terms hf_bound
  obtain ⟨⟨hs_out, hs_next, hs_mode, hs_bound⟩, hs_ext⟩ := hsw
  have hnext1 : s.next ≤ ((fromBitsTerms bits.reverse (1 : ZMod p) s).2).next := by
    rw [hf_next]; omega
  constructor
  · simp only [from_bits, CSM.bind_apply]
    refine ⟨?_, ?_, hs_mode, hs_bound⟩
    · rw [hs_next, hf_next]; omega
    · rw [hs_out, hs_next, hf_next]; omega
  · intro v hv
    obtain ⟨v₁, hag1, hsat1, hval1⟩ := hf_ext v hv
    obtain ⟨v₂, hag2, hsat2, hval2⟩ := hs_ext v₁ hsat1
    simp only [from_bits, CSM.bind_apply]
    refine ⟨v₂, agreeBelow_trans hnext1 hag1 hag2, hsat2, ?_⟩
    rw [hval2, hval1, one_mul, lsbVal_reverse]

theorem toBitsSumLoop_complete {p : Nat} (L : List (List Nat)) (i : Nat) (w : Nat) (s : CS p)
    (h : s.witnessGen = false) (hL : ∀ ch ∈ L, ∀ x ∈ ch, x < s.next) (hw : w < s.next)
    (hb : csBound s) :
    (s.next ≤ ((toBitsSumLoop L i w s).2).next ∧
      (toBitsSumLoop L i w s).1 < ((toBitsSumLoop L i w s).2).next ∧
      ((toBitsSumLoop L i w s).2).witnessGen = false ∧ csBound (toBitsSumLoop L i w s).2) ∧
    ∀ v : Nat → ZMod p, Satisfies v s.constraints →
      ∃ v', agreeBelow s.next v v' ∧ Satisfies v' ((toBitsSumLoop L i w s).2).constraints ∧
        v' (toBitsSumLoop L i w s).1 = v w + loopVal v L i := by
  induction L generalizing i w s with
  | nil =>
    refine ⟨⟨le_refl _, hw, h, hb⟩, ?_⟩
    intro v hv
    refine ⟨v, fun j hj => rfl, hv, ?_⟩
    simp [toBitsSumLoop, loopVal]
  | cons ch rest ih =>
    have hch : ∀ x ∈ ch.reverse, x < s.next := by
      intro x hx
      exact hL ch (List.mem_cons_self _ _) x (List.mem_reverse.mp hx)
    have hfb := from_bits_complete ch.reverse s h
      (fun x hx => hL ch (List.mem_cons_self _ _) x (List.mem_reverse.mp hx)) hb
    obtain ⟨⟨h1_le, h1_out, h1_mode, h1_bound⟩, h1_ext⟩ := hfb
    have hmc := mul_const_complete (from_bits ch.reverse s).1 ((2 : ZMod p) ^ (8 * i))
      (from_bits ch.reverse s).2 h1_mode h1_out h1_bound
    obtain ⟨⟨h2_out, h2_next, h2_mode, h2_bound⟩, h2_ext⟩ := hmc
    have h2_le : ((from_bits ch.reverse s).2).next ≤
        ((mul_const (from_bits ch.reverse s).1 ((2 : ZMod p) ^ (8 * i)) (from_bits ch.reverse s).2).2).next := by
      rw [h2_next]; omega
    have hw2 : w < ((mul_const (from_bits ch.reverse s).1 ((2 : ZMod p) ^ (8 * i)) (from_bits ch.reverse s).2).2).next := by
      rw [h2_next]; omega
    have hm2 : (mul_const (from_bits ch.reverse s).1 ((2 : ZMod p) ^ (8 * i)) (from_bits ch.reverse s).2).1 <
        ((mul_const (from_bits ch.reverse s).1 ((2 : ZMod p) ^ (8 * i)) (from_bits ch.reverse s).2).2).next := by
      rw [h2_out, h2_next]; omega
    have hwa := wire_add_complete w
      (mul_const (from_bits ch.reverse s).1 ((2 : ZMod p) ^ (8 * i)) (from_bits ch.reverse s).2).1
      (mul_const (from_bits ch.reverse s).1 ((2 : ZMod p) ^ (8 * i)) (from_bits ch.reverse s).2).2
      h2_mode hw2 hm2 h2_bound
    obtain ⟨⟨h3_out, h3_next, h3_mode, h3_bound⟩, h3_ext⟩ := hwa
    have h3_le : ((mul_const (from_bits ch.reverse s).1 ((2 : ZMod p) ^ (8 * i)) (from_bits ch.reverse s).2).2).next ≤
        ((wire_add w (mul_const (from_bits ch.reverse s).1 ((2 : ZMod p) ^ (8 * i)) (from_bits ch.reverse s).2).1
          (mul_const (from_bits ch.reverse s).1 ((2 : ZMod p) ^ (8 * i)) (from_bits ch.reverse s).2).2).2).next := by
      rw [h3_next]; omega
    have hrest : ∀ c ∈ rest, ∀ x ∈ c, x <
        ((wire_add w (mul_const (from_bits ch.reverse s).1 ((2 : ZMod p) ^ (8 * i)) (from_bits ch.reverse s).2).1
          (mul_const (from_bits ch.reverse s).1 ((2 : ZMod p) ^ (8 * i)) (from_bits ch.reverse s).2).2).2).next := by
      intro c hc x hx
      have := hL c (List.mem_cons_of_mem _ hc) x hx
      omega
    have hw3 : (wire_add w (mul_const (from_bits ch.reverse s).1 ((2 : ZMod p) ^ (8 * i)) (from_bits ch.reverse s).2).1
        (mul_const (from_bits ch.reverse s).1 ((2 : ZMod p) ^ (8 * i)) (from_bits ch.reverse s).2).2).1 <
        ((wire_add w (mul_const (from_bits ch.reverse s).1 ((2 : ZMod p) ^ (8 * i)) (from_bits ch.reverse s).2).1
          (mul_const (from_bits ch.reverse s).1 ((2 : ZMod p) ^ (8 * i)) (from_bits ch.reverse s).2).2).2).next := by
      rw [h3_out, h3_next]; omega
    have hrec := ih (i + 1)
      (wire_add w (mul_const (from_bits ch.reverse s).1 ((2 : ZMod p) ^ (8 * i)) (from_bits ch.reverse s).2).1
        (mul_const (from_bits ch.reverse s).1 ((2 : ZMod p) ^ (8 * i)) (from_bits ch.reverse s).2).2).1
      (wire_add w (mul_const (from_bits ch.reverse s).1 ((2 : ZMod p) ^ (8 * i)) (from_bits ch.reverse s).2).1
        (mul_const (from_bits ch.reverse s).1 ((2 : ZMod p) ^ (8 * i)) (from_bits ch.reverse s).2).2).2
      h3_mode hrest hw3 h3_bound
    obtain ⟨⟨h4_le, h4_out, h4_mode, h4_bound⟩, h4_ext⟩ := hrec
    constructor
    · simp only [toBitsSumLoop, CSM.bind_apply]
      exact ⟨by omega, h4_out, h4_mode, h4_bound⟩
    · intro v hv
      obtain ⟨v₁, hag1, hsat1, hval1⟩ := h1_ext v hv
      obtain ⟨v₂, hag2, hsat2, hval2⟩ := h2_ext v₁ hsat1
      obtain ⟨v₃, hag3, hsat3, hval3⟩ := h3_ext v₂ hsat2
      obtain ⟨v₄, hag4, hsat4, hval4⟩ := h4_ext v₃ hsat3
      simp only [toBitsSumLoop, CSM.bind_apply]
      have hagto2 : agreeBelow s.next v v₂ := agreeBelow_trans h1_le hag1 hag2
      have hagto3 : agreeBelow s.next v v₃ :=
        agreeBelow_trans (le_trans h1_le h2_le) hagto2 hag3
      have hagto4 : agreeBelow s.next v v₄ :=
        agreeBelow_trans (le_trans (le_trans h1_le h2_le) h3_le) hagto3 hag4
      refine ⟨v₄, hagto4, hsat4, ?_⟩
      rw [hval4, hval3, hval2, hval1]
      have e1 : v₂ w = v w := hagto2 w hw
      have e3 : loopVal v₃ rest (i + 1) = loopVal v rest (i + 1) :=
        loopVal_agree (fun c hc x hx => hL c (List.mem_cons_of_mem _ hc) x hx) hagto3
      have hrevv : msbVal v ch.reverse = lsbVal v ch := by
        have h5 := lsbVal_reverse v ch.reverse
        rw [List.reverse_reverse] at h5
        exact h5.symm
      rw [e1, e3, hrevv, loopVal_cons]
      ring

theorem map_range_getD {α : Type} (k : Nat) (f : Nat → α) (xs : List α) (d : α)
    (hlen : xs.length = k) (h : ∀ i, i < k → f i = xs.getD i d) :
    (List.range k).map f = xs := by
  apply List.ext_getElem
  · rw [List.length_map, List.length_range, hlen]
  · intro i h1 h2
    rw [List.getElem_map, List.getElem_range]
    rw [h i (by rw [List.length_map, List.length_range] at h1; exact h1)]
    exact List.getD_eq_getElem xs d h2

/-- Completeness of `to_bits(a, k)` in constraint mode: for any choice `xs` of
`k` bit-wire values whose byte-chunked weighted sum equals the value of `a`,
any satisfying assignment of the surrounding state extends to one satisfying
all constraints emitted by `to_bits` and giving the bit wires the values
`xs`. -/
theorem to_bits_complete {p : Nat} (nbytes k : Nat) (a : Nat) (xs : List (ZMod p)) (s : CS p)
    (h : s.witnessGen = false) (ha : a < s.next) (hb : csBound s) (hxs : xs.length = k) :
    ∃ bits s', to_bits nbytes a k s = some (bits, s') ∧
      bits = (List.range k).map (fun i => s.next + i) ∧
      s'.witnessGen = false ∧ csBound s' ∧ s.next + k ≤ s'.next ∧
      ∀ v : Nat → ZMod p, Satisfies v s.constraints →
        v a = loopL (chunks8 xs).reverse 0 →
        ∃ v', agreeBelow s.next v v' ∧ Satisfies v' s'.constraints ∧
          ∀ i, i < k → v' (s.next + i) = xs.getD i 0 := by
  rw [to_bits_con_eq nbytes a k s h]
  have hmode1 : ((mapCSM (fun _ => alloc_var (0 : ZMod p)) (List.range k) s).2).witnessGen = false := by
    rw [mapCSM_mode (fun _ => alloc_var (0 : ZMod p)) (fun a s => rfl)]
    exact h
  have hbound1 := mapAlloc_csBound (List.range k) s hb
  have hnext1 : ((mapCSM (fun _ => alloc_var (0 : ZMod p)) (List.range k) s).2).next = s.next + k := by
    rw [mapCSM_alloc_next, List.length_range]
  have hwires := mapCSM_alloc_wires (List.range k) s
  rw [List.length_range] at hwires
  have hbitslt : ∀ w ∈ (mapCSM (fun _ => alloc_var (0 : ZMod p)) (List.range k) s).1,
      w < ((mapCSM (fun _ => alloc_var (0 : ZMod p)) (List.range k) s).2).next := by
    intro w hw
    rw [hwires] at hw
    obtain ⟨i, hi, rfl⟩ := List.mem_map.mp hw
    rw [hnext1]
    have := List.mem_range.mp hi
    omega
  have hchlt : ∀ ch ∈ (chunks8 (mapCSM (fun _ => alloc_var (0 : ZMod p)) (List.range k) s).1).reverse,
      ∀ x ∈ ch, x < ((mapCSM (fun _ => alloc_var (0 : ZMod p)) (List.range k) s).2).next := by
    intro ch hch x hx
    exact hbitslt x (chunks8_mem _ ch (List.mem_reverse.mp hch) x hx)
  have hzlt : (csZero : Nat) < ((mapCSM (fun _ => alloc_var (0 : ZMod p)) (List.range k) s).2).next :=
    csZero_lt hbound1.1
  have hsl := toBitsSumLoop_complete
    (chunks8 (mapCSM (fun _ => alloc_var (0 : ZMod p)) (List.range k) s).1).reverse 0 csZero
    (mapCSM (fun _ => alloc_var (0 : ZMod p)) (List.range k) s).2 hmode1 hchlt hzlt hbound1
  obtain ⟨⟨hl_le, hl_out, hl_mode, hl_bound⟩, hl_ext⟩ := hsl
  have halt : a < ((toBitsSumLoop (chunks8 (mapCSM (fun _ => alloc_var (0 : ZMod p)) (List.range k) s).1).reverse 0 csZero
      (mapCSM (fun _ => alloc_var (0 : ZMod p)) (List.range k) s).2).2).next := by
    rw [hnext1] at hl_le
    omega
  have hae := assert_equal_complete a
    (toBitsSumLoop (chunks8 (mapCSM (fun _ => alloc_var (0 : ZMod p)) (List.range k) s).1).reverse 0 csZero
      (mapCSM (fun _ => alloc_var (0 : ZMod p)) (List.range k) s).2).1
    (toBitsSumLoop (chunks8 (mapCSM (fun _ => alloc_var (0 : ZMod p)) (List.range k) s).1).reverse 0 csZero
      (mapCSM (fun _ => alloc_var (0 : ZMod p)) (List.range k) s).2).2
    hl_mode halt hl_out hl_bound
  obtain ⟨⟨ha_next, ha_mode, ha_bound⟩, ha_ext⟩ := hae
  have hnk : s.next + k ≤ ((assert_equal a
      (toBitsSumLoop (chunks8 (mapCSM (fun _ => alloc_var (0 : ZMod p)) (List.range k) s).1).reverse 0 csZero
        (mapCSM (fun _ => alloc_var (0 : ZMod p)) (List.range k) s).2).1
      (toBitsSumLoop (chunks8 (mapCSM (fun _ => alloc_var (0 : ZMod p)) (List.range k) s).1).reverse 0 csZero
        (mapCSM (fun _ => alloc_var (0 : ZMod p)) (List.range k) s).2).2).2).next := by
    rw [ha_next]
    rw [hnext1] at hl_le
    omega
  refine ⟨_, _, rfl, hwires, ha_mode, ha_bound, hnk, ?_⟩
  intro v hv hsum
  obtain ⟨v₁, hag1, hsat1, hvals1⟩ := mapAlloc_complete xs (List.range k) s hb v hv
  obtain ⟨v₂, hag2, hsat2, hval2⟩ := hl_ext v₁ hsat1
  have hle1 : s.next ≤ ((mapCSM (fun _ => alloc_var (0 : ZMod p)) (List.range k) s).2).next := by
    rw [hnext1]; omega
  have hagto2 : agreeBelow s.next v v₂ := agreeBelow_trans hle1 hag1 hag2
  have hbitvals : ∀ i, i < k → v₂ (s.next + i) = xs.getD i 0 := by
    intro i hi
    rw [hag2 (s.next + i) (by rw [hnext1]; omega)]
    rw [List.length_range] at hvals1
    exact hvals1 i hi
  have hmapv : (mapCSM (fun _ => alloc_var (0 : ZMod p)) (List.range k) s).1.map v₂ = xs := by
    rw [hwires, List.map_map]
    exact map_range_getD k _ xs 0 hxs (fun i hi => hbitvals i hi)
  have hloopv : loopVal v₂ (chunks8 (mapCSM (fun _ => alloc_var (0 : ZMod p)) (List.range k) s).1).reverse 0
      = loopL (chunks8 xs).reverse 0 := by
    rw [loopVal_map, List.map_reverse, ← chunks8_map, hmapv]
  have hveq : v₂ a =
      v₂ (toBitsSumLoop (chunks8 (mapCSM (fun _ => alloc_var (0 : ZMod p)) (List.range k) s).1).reverse 0 csZero
        (mapCSM (fun _ => alloc_var (0 : ZMod p)) (List.range k) s).2).1 := by
    rw [hval2]
    have hz : v₁ csZero = 0 := hsat1.2.1
    have hloop1 : loopVal v₁ (chunks8 (mapCSM (fun _ => alloc_var (0 : ZMod p)) (List.range k) s).1).reverse 0
        = loopVal v₂ (chunks8 (mapCSM (fun _ => alloc_var (0 : ZMod p)) (List.range k) s).1).reverse 0 :=
      (loopVal_agree hchlt hag2).symm
    rw [hz, zero_add, hloop1, hloopv, hagto2 a ha, hsum]
  refine ⟨v₂, hagto2, ha_ext v₂ hsat2 hveq, hbitvals⟩

theorem initCS_csBound {p : Nat} (wg : Bool) : csBound (initCS p wg) := by
  constructor
  · exact le_refl 2
  · intro c hc
    exact absurd hc (List.not_mem_nil c)

theorem baseV_satisfies {p : Nat} (wg : Bool) :
    Satisfies (baseV p) ((initCS p wg).constraints) := by
  refine ⟨?_, ?_, ?_⟩
  · rw [csOne_eq]
    show (if 0 = 0 then (1 : ZMod p) else 0) = 1
    rw [if_pos rfl]
  · rw [csZero_eq]
    show (if 1 = 0 then (1 : ZMod p) else 0) = 0
    rw [if_neg (by omega)]
  · intro c hc
    exact absurd hc (List.not_mem_nil c)

/-- Counterexample to claim C3 as stated: over the repository's field with the
input wire valued `a = 256` and `k = 16`, there is an assignment satisfying
every constraint emitted by `to_bits` whose bit wires are not the little-endian
16-bit encoding of `a mod 2^16` (that encoding has bit 0 = 0, but a satisfying
assignment gives the wire at position 0 the value 1: the implementation orders
chunks big-endian by byte). -/
theorem C3_counterexample :
    ¬ (∀ (bits : List Nat) (s' : CS secqP),
        to_bits 32 (alloc_var (0 : ZMod secqP) (initCS secqP false)).1 16
          (alloc_var (0 : ZMod secqP) (initCS secqP false)).2 = some (bits, s') →
        ∀ v : Nat → ZMod secqP, Satisfies v s'.constraints →
        ∀ t, t < 16 → v (bits.getD t 0) =
          (if Nat.testBit ((v (alloc_var (0 : ZMod secqP) (initCS secqP false)).1).val % 2 ^ 16) t
            then 1 else 0)) := by
  intro h
  have hmode0 : ((alloc_var (0 : ZMod secqP) (initCS secqP false)).2).witnessGen = false := rfl
  obtain ⟨⟨ha_out, ha_next, ha_mode, ha_bound, ha_constr⟩, ha_ext⟩ :=
    alloc_var_complete (256 : ZMod secqP) 0 (initCS secqP false) rfl (initCS_csBound false)
  obtain ⟨v₁, hag1, hsat1, hval1⟩ := ha_ext (baseV secqP) (baseV_satisfies false)
  have halt : (alloc_var (0 : ZMod secqP) (initCS secqP false)).1 <
      ((alloc_var (0 : ZMod secqP) (initCS secqP false)).2).next := by
    rw [ha_out, ha_next]
    omega
  obtain ⟨bits, s', hrun, hbits_eq, hs_mode, hs_bound, hs_next, hcomp⟩ :=
    to_bits_complete 32 16 (alloc_var (0 : ZMod secqP) (initCS secqP false)).1
      ((1 : ZMod secqP) :: List.replicate 15 0)
      (alloc_var (0 : ZMod secqP) (initCS secqP false)).2 ha_mode halt ha_bound (by decide)
  have hsum : v₁ (alloc_var (0 : ZMod secqP) (initCS secqP false)).1 =
      loopL (chunks8 ((1 : ZMod secqP) :: List.replicate 15 0)).reverse 0 := by
    rw [hval1]
    decide
  obtain ⟨v₂, hag2, hsat2, hbitvals⟩ := hcomp v₁ hsat1 hsum
  have hinst := h bits s' hrun v₂ hsat2 0 (by norm_num)
  have hw0 : bits.getD 0 0 = ((alloc_var (0 : ZMod secqP) (initCS secqP false)).2).next := by
    rw [hbits_eq]
    decide
  have hvbit : v₂ (bits.getD 0 0) = 1 := by
    rw [hw0]
    have := hbitvals 0 (by norm_num)
    simpa using this
  have hva : v₂ (alloc_var (0 : ZMod secqP) (initCS secqP false)).1 = 256 := by
    rw [hag2 _ halt, hval1]
  rw [hvbit, hva] at hinst
  revert hinst
  decide

/-- Claim C4: `to_bits` emits no booleanity constraints: over the repository's
field with `k = 8`, there is an assignment satisfying every emitted constraint
in which the bit wire at position 0 holds 2 ∉ {0, 1}, while the weighted sum
of the bit wires (`Σ bits[t]·2^t` for a single 8-bit chunk) still equals the
decomposed wire's value `a = 2`. -/
theorem C4_to_bits_no_booleanity :
    ∃ (bits : List Nat) (s' : CS secqP) (v : Nat → ZMod secqP),
      to_bits 32 (alloc_var (0 : ZMod secqP) (initCS secqP false)).1 8
        (alloc_var (0 : ZMod secqP) (initCS secqP false)).2 = some (bits, s') ∧
      Satisfies v s'.constraints ∧
      v (bits.getD 0 0) = 2 ∧ v (bits.getD 0 0) ≠ 0 ∧ v (bits.getD 0 0) ≠ 1 ∧
      lsbVal v bits = v (alloc_var (0 : ZMod secqP) (initCS secqP false)).1 := by
  obtain ⟨⟨ha_out, ha_next, ha_mode, ha_bound, ha_constr⟩, ha_ext⟩ :=
    alloc_var_complete (2 : ZMod secqP) 0 (initCS secqP false) rfl (initCS_csBound false)
  obtain ⟨v₁, hag1, hsat1, hval1⟩ := ha_ext (baseV secqP) (baseV_satisfies false)
  have halt : (alloc_var (0 : ZMod secqP) (initCS secqP false)).1 <
      ((alloc_var (0 : ZMod secqP) (initCS secqP false)).2).next := by
    rw [ha_out, ha_next]
    omega
  obtain ⟨bits, s', hrun, hbits_eq, hs_mode, hs_bound, hs_next, hcomp⟩ :=
    to_bits_complete 32 8 (alloc_var (0 : ZMod secqP) (initCS secqP false)).1
      ((2 : ZMod secqP) :: List.replicate 7 0)
      (alloc_var (0 : ZMod secqP) (initCS secqP false)).2 ha_mode halt ha_bound (by decide)
  have hsum : v₁ (alloc_var (0 : ZMod secqP) (initCS secqP false)).1 =
      loopL (chunks8 ((2 : ZMod secqP) :: List.replicate 7 0)).reverse 0 := by
    rw [hval1]
    decide
  obtain ⟨v₂, hag2, hsat2, hbitvals⟩ := hcomp v₁ hsat1 hsum
  have hw0 : bits.getD 0 0 = ((alloc_var (0 : ZMod secqP) (initCS secqP false)).2).next := by
    rw [hbits_eq]
    decide
  have hvbit : v₂ (bits.getD 0 0) = 2 := by
    rw [hw0]
    have := hbitvals 0 (by norm_num)
    simpa using this
  have hmapv : bits.map v₂ = (2 : ZMod secqP) :: List.replicate 7 0 := by
    rw [hbits_eq, List.map_map]
    refine map_range_getD 8 _ _ 0 (by decide) ?_
    intro i hi
    exact hbitvals i hi
  refine ⟨bits, s', v₂, hrun, hsat2, hvbit, ?_, ?_, ?_⟩
  · rw [hvbit]; decide
  · rw [hvbit]; decide
  · rw [lsbVal_map, hmapv]
    rw [hag2 _ halt, hval1]
    decide

/-- Claim C5 amended: in any assignment satisfying the constraints of
`from_bits(to_bits(a, k))`, the output wire is the MSB-first repacking of the
bit wires while `to_bits` binds them to `a` with big-endian bytes and
little-endian bits within each byte; the two weightings differ, so the round
trip returns the value of `a` with the bit order reversed within each byte,
not `a` itself. -/
theorem C5_amended_roundtrip {p : Nat} (nbytes k : Nat) (a : Nat) (s : CS p)
    (h : s.witnessGen = false) :
    ∀ bits s', to_bits nbytes a k s = some (bits, s') →
      ∀ v : Nat → ZMod p, Satisfies v ((from_bits bits s').2).constraints →
        v (from_bits bits s').1 = msbVal v bits ∧
        v a = loopVal v (chunks8 bits).reverse 0 := by
  intro bits s' hrun v hv
  have hmode' : s'.witnessGen = false := by
    rw [to_bits_con_eq nbytes a k s h] at hrun
    injection hrun with hrun2
    injection hrun2 with hb hs
    rw [← hs]
    rw [assert_equal_mode, toBitsSumLoop_mode,
      mapCSM_mode (fun _ => alloc_var (0 : ZMod p)) (fun a s => rfl)]
    exact h
  obtain ⟨bits₀, s₀, hrun₀, hlen₀, hval₀⟩ := to_bits_sum_value nbytes a k s h
  rw [hrun] at hrun₀
  injection hrun₀ with hpair
  injection hpair with hbq hsq
  subst hbq
  subst hsq
  obtain ⟨hone, hzero, hsat⟩ := hv
  have hfb := from_bits_value v bits s' hmode' hone hsat
  refine ⟨hfb.1, ?_⟩
  exact (hval₀ v ⟨hone, hzero, hfb.2⟩).1

/-- Witness for the amended C5 over the repository's field at `k = 16`. -/
theorem C5_amended_roundtrip_witness :
    ((initCS secqP false).witnessGen = false) ∧
    (∀ bits s', to_bits 32 2 16 (initCS secqP false) = some (bits, s') →
      ∀ v : Nat → ZMod secqP, Satisfies v ((from_bits bits s').2).constraints →
        v (from_bits bits s').1 = msbVal v bits ∧
        v 2 = loopVal v (chunks8 bits).reverse 0) :=
  ⟨rfl, C5_amended_roundtrip 32 16 2 (initCS secqP false) rfl⟩

/-- Counterexample to claim C5 as stated: over the repository's field with
`a = 2` (two significant bits) and `k = 16`, a satisfying assignment of the
composed circuit gives the `from_bits` output 64, not 2. -/
theorem C5_counterexample :
    ∃ (bits : List Nat) (s' : CS secqP) (v : Nat → ZMod secqP),
      to_bits 32 (alloc_var (0 : ZMod secqP) (initCS secqP false)).1 16
        (alloc_var (0 : ZMod secqP) (initCS secqP false)).2 = some (bits, s') ∧
      Satisfies v ((from_bits bits s').2).constraints ∧
      v (alloc_var (0 : ZMod secqP) (initCS secqP false)).1 = 2 ∧
      v (from_bits bits s').1 = 64 ∧
      v (from_bits bits s').1 ≠ v (alloc_var (0 : ZMod secqP) (initCS secqP false)).1 := by
  obtain ⟨⟨ha_out, ha_next, ha_mode, ha_bound, ha_constr⟩, ha_ext⟩ :=
    alloc_var_complete (2 : ZMod secqP) 0 (initCS secqP false) rfl (initCS_csBound false)
  obtain ⟨v₁, hag1, hsat1, hval1⟩ := ha_ext (baseV secqP) (baseV_satisfies false)
  have halt : (alloc_var (0 : ZMod secqP) (initCS secqP false)).1 <
      ((alloc_var (0 : ZMod secqP) (initCS secqP false)).2).next := by
    rw [ha_out, ha_next]
    omega
  obtain ⟨bits, s', hrun, hbits_eq, hs_mode, hs_bound, hs_next, hcomp⟩ :=
    to_bits_complete 32 16 (alloc_var (0 : ZMod secqP) (initCS secqP false)).1
      (List.replicate 9 0 ++ (1 : ZMod secqP) :: List.replicate 6 0)
      (alloc_var (0 : ZMod secqP) (initCS secqP false)).2 ha_mode halt ha_bound (by decide)
  have hsum : v₁ (alloc_var (0 : ZMod secqP) (initCS secqP false)).1 =
      loopL (chunks8 (List.replicate 9 0 ++ (1 : ZMod secqP) :: List.replicate 6 0)).reverse 0 := by
    rw [hval1]
    decide
  obtain ⟨v₂, hag2, hsat2, hbitvals⟩ := hcomp v₁ hsat1 hsum
  have hbitslt : ∀ w ∈ bits, w < s'.next := by
    intro w hw
    rw [hbits_eq] at hw
    obtain ⟨i, hi, hfi⟩ := List.mem_map.mp hw
    have hi' := List.mem_range.mp hi
    have hfi' : ((alloc_var (0 : ZMod secqP) (initCS secqP false)).2).next + i = w := hfi
    omega
  obtain ⟨⟨hf_le, hf_out, hf_mode, hf_bound⟩, hf_ext⟩ :=
    from_bits_complete bits s' hs_mode hbitslt hs_bound
  obtain ⟨v₃, hag3, hsat3, hval3⟩ := hf_ext v₂ hsat2
  have hvain : (alloc_var (0 : ZMod secqP) (initCS secqP false)).1 < s'.next := by
    have h1 := halt
    omega
  have hva3 : v₃ (alloc_var (0 : ZMod secqP) (initCS secqP false)).1 = 2 := by
    rw [hag3 _ hvain, hag2 _ halt, hval1]
  have hmapv : bits.map v₂ = List.replicate 9 0 ++ (1 : ZMod secqP) :: List.replicate 6 0 := by
    rw [hbits_eq, List.map_map]
    refine map_range_getD 16 _ _ 0 (by decide) ?_
    intro i hi
    exact hbitvals i hi
  have hout : v₃ (from_bits bits s').1 = 64 := by
    rw [hval3, msbVal_map, hmapv]
    decide
  refine ⟨bits, s', v₃, hrun, hsat3, hva3, hout, ?_⟩
  rw [hout, hva3]
  decide

/-! ## Claim C2: the packing step of to_addr -/

theorem scaled_from_bits_mode {p : Nat} (bits : List Nat) (k : ZMod p) (s : CS p) :
    ((scaled_from_bits bits k s).2).witnessGen = s.witnessGen := by
  simp only [scaled_from_bits, CSM.bind_apply]
  rw [wire_mul_mode, alloc_const_mode, from_bits_mode]

theorem scaled_from_bits_value {p : Nat} (v : Nat → ZMod p) (bits : List Nat) (k : ZMod p)
    (s : CS p) (h : s.witnessGen = false) (hone : v csOne = 1)
    (hsat : SatList v ((scaled_from_bits bits k s).2).constraints) :
    v (scaled_from_bits bits k s).1 = msbVal v bits * k ∧ SatList v s.constraints := by
  simp only [scaled_from_bits, CSM.bind_apply] at hsat ⊢
  have hm0 : ((from_bits bits s).2).witnessGen = false := by
    rw [from_bits_mode]; exact h
  have hmc : ((alloc_const k (from_bits bits s).2).2).witnessGen = false := by
    rw [alloc_const_mode]; exact hm0
  have hmul := wire_mul_value v (from_bits bits s).1 (alloc_const k (from_bits bits s).2).1
    (alloc_const k (from_bits bits s).2).2 hmc hsat
  have hc := alloc_const_value v k (from_bits bits s).2 hm0 hone hmul.2
  have hf := from_bits_value v bits s h hone hc.2
  refine ⟨?_, hf.2⟩
  rw [hmul.1, hc.1, hf.1]

theorem scaled_from_bits_complete {p : Nat} (bits : List Nat) (k : ZMod p) (s : CS p)
    (h : s.witnessGen = false) (hbits : ∀ w ∈ bits, w < s.next) (hb : csBound s) :
    (s.next ≤ ((scaled_from_bits bits k s).2).next ∧
      (scaled_from_bits bits k s).1 < ((scaled_from_bits bits k s).2).next ∧
      ((scaled_from_bits bits k s).2).witnessGen = false ∧
      csBound (scaled_from_bits bits k s).2) ∧
    ∀ v : Nat → ZMod p, Satisfies v s.constraints →
      ∃ v', agreeBelow s.next v v' ∧ Satisfies v' ((scaled_from_bits bits k s).2).constraints ∧
        v' (scaled_from_bits bits k s).1 = msbVal v bits * k := by
  simp only [scaled_from_bits, CSM.bind_apply]
  obtain ⟨⟨h1_le, h1_out, h1_mode, h1_bound⟩, h1_ext⟩ := from_bits_complete bits s h hbits hb
  obtain ⟨⟨h2_out, h2_next, h2_mode, h2_bound⟩, h2_ext⟩ :=
    alloc_const_complete k (from_bits bits s).2 h1_mode h1_bound
  have h2_le : ((from_bits bits s).2).next ≤ ((alloc_const k (from_bits bits s).2).2).next := by
    rw [h2_next]; omega
  have ha : (from_bits bits s).1 < ((alloc_const k (from_bits bits s).2).2).next := by
    rw [h2_next]; omega
  have hbw : (alloc_const k (from_bits bits s).2).1 <
      ((alloc_const k (from_bits bits s).2).2).next := by
    rw [h2_out, h2_next]; omega
  obtain ⟨⟨h3_out, h3_next, h3_mode, h3_bound⟩, h3_ext⟩ :=
    wire_mul_complete (from_bits bits s).1 (alloc_const k (from_bits bits s).2).1
      (alloc_const k (from_bits bits s).2).2 h2_mode ha hbw h2_bound
  constructor
  · refine ⟨?_, ?_, h3_mode, h3_bound⟩
    · rw [h3_next, h2_next]; omega
    · rw [h3_out, h3_next]; omega
  · intro v hv
    obtain ⟨v₁, hag1, hsat1, hval1⟩ := h1_ext v hv
    obtain ⟨v₂, hag2, hsat2, hval2⟩ := h2_ext v₁ hsat1
    obtain ⟨v₃, hag3, hsat3, hval3⟩ := h3_ext v₂ hsat2
    have hagto2 : agreeBelow s.next v v₂ := agreeBelow_trans h1_le hag1 hag2
    have hagto3 : agreeBelow s.next v v₃ :=
      agreeBelow_trans (le_trans h1_le h2_le) hagto2 hag3
    refine ⟨v₃, hagto3, hsat3, ?_⟩
    rw [hval3]
    have e1 : v₂ (from_bits bits s).1 = v₁ (from_bits bits s).1 := hag2 _ h1_out
    rw [e1, hval1, hval2]

theorem msbVal_cons_zero {p : Nat} (v : Nat → ZMod p) (w : Nat) (l : List Nat)
    (hw : v w = 0) : msbVal v (w :: l) = msbVal v l := by
  unfold msbVal
  rw [List.foldl_cons]
  simp [hw]

theorem msbVal_zero_prefix {p : Nat} (v : Nat → ZMod p) (l : List Nat) (n : Nat)
    (hz : v csZero = 0) :
    msbVal v (List.replicate n csZero ++ l) = msbVal v l := by
  induction n with
  | zero => rfl
  | succ n ih =>
    rw [List.replicate_succ, List.cons_append, msbVal_cons_zero v csZero _ hz, ih]

/-- In any satisfying assignment, the packing step returns
`hi64·2^128 + mid64·2^64 + low`, where `low` also carries the 32 zero wires
prepended by the source. -/
theorem pack_value {p : Nat} (v : Nat → ZMod p) (ab : List Nat) (s : CS p)
    (h : s.witnessGen = false) (hone : v csOne = 1)
    (hsat : SatList v ((packAddress ab s).2).constraints) :
    v (packAddress ab s).1 =
      msbVal v (ab.take 64) * 2 ^ 128 + msbVal v ((ab.drop 64).take 64) * 2 ^ 64 +
        msbVal v (List.replicate 32 csZero ++ ab.drop 128) ∧
    SatList v s.constraints := by
  simp only [packAddress, CSM.bind_apply] at hsat ⊢
  set T0 := scaled_from_bits (ab.take 64) ((2 : ZMod p) ^ 128) s with hT0
  set T1 := scaled_from_bits ((ab.drop 64).take 64) ((2 : ZMod p) ^ 64) T0.2 with hT1
  set T2 := from_bits (List.replicate 32 csZero ++ ab.drop 128) T1.2 with hT2
  set T3 := wire_add T0.1 T1.1 T2.2 with hT3
  have hm0 : (T0.2).witnessGen = false := by rw [hT0, scaled_from_bits_mode]; exact h
  have hm1 : (T1.2).witnessGen = false := by rw [hT1, scaled_from_bits_mode]; exact hm0
  have hm2 : (T2.2).witnessGen = false := by rw [hT2, from_bits_mode]; exact hm1
  have hm3 : (T3.2).witnessGen = false := by rw [hT3, wire_add_mode]; exact hm2
  have hout := wire_add_value v T3.1 T2.1 T3.2 hm3 hone hsat
  have hadd := wire_add_value v T0.1 T1.1 T2.2 hm2 hone hout.2
  have hf2 := from_bits_value v (List.replicate 32 csZero ++ ab.drop 128) T1.2 hm1 hone hadd.2
  have hs1 := scaled_from_bits_value v ((ab.drop 64).take 64) ((2 : ZMod p) ^ 64) T0.2
    hm0 hone hf2.2
  have hs0 := scaled_from_bits_value v (ab.take 64) ((2 : ZMod p) ^ 128) s h hone hs1.2
  refine ⟨?_, hs0.2⟩
  rw [← hT2] at hf2
  rw [← hT1] at hs1
  rw [← hT0] at hs0
  rw [hout.1, hadd.1, hf2.1, hs1.1, hs0.1]

/-- Completeness of the packing step: any satisfying assignment of the
surrounding state extends to one satisfying all emitted constraints, with the
output carrying the `2^128`/`2^64` packing of the input bit values. -/
theorem pack_complete {p : Nat} (ab : List Nat) (s : CS p)
    (h : s.witnessGen = false) (hab : ∀ w ∈ ab, w < s.next) (hb : csBound s) :
    (s.next ≤ ((packAddress ab s).2).next ∧
      ((packAddress ab s).2).witnessGen = false ∧ csBound (packAddress ab s).2) ∧
    ∀ v : Nat → ZMod p, Satisfies v s.constraints →
      ∃ v', agreeBelow s.next v v' ∧ Satisfies v' ((packAddress ab s).2).constraints ∧
        v' (packAddress ab s).1 =
          msbVal v (ab.take 64) * 2 ^ 128 + msbVal v ((ab.drop 64).take 64) * 2 ^ 64 +
            msbVal v (List.replicate 32 csZero ++ ab.drop 128) := by
  have htake : ∀ w ∈ ab.take 64, w < s.next := fun w hw => hab w (List.take_subset _ _ hw)
  have hmid : ∀ w ∈ (ab.drop 64).take 64, w < s.next := fun w hw =>
    hab w (List.drop_subset _ _ (List.take_subset _ _ hw))
  have hlowS : ∀ w ∈ List.replicate 32 csZero ++ ab.drop 128, w < s.next := by
    intro w hw
    rcases List.mem_append.mp hw with hz | hd
    · have hwz := List.eq_of_mem_replicate hz
      subst hwz
      exact csZero_lt hb.1
    · exact hab w (List.drop_subset _ _ hd)
  simp only [packAddress, CSM.bind_apply]
  obtain ⟨⟨h0_le, h0_out, h0_mode, h0_bound⟩, h0_ext⟩ :=
    scaled_from_bits_complete (ab.take 64) ((2 : ZMod p) ^ 128) s h htake hb
  set T0 := scaled_from_bits (ab.take 64) ((2 : ZMod p) ^ 128) s with hT0
  have hmid' : ∀ w ∈ (ab.drop 64).take 64, w < (T0.2).next := fun w hw =>
    lt_of_lt_of_le (hmid w hw) h0_le
  obtain ⟨⟨h1_le, h1_out, h1_mode, h1_bound⟩, h1_ext⟩ :=
    scaled_from_bits_complete ((ab.drop 64).take 64) ((2 : ZMod p) ^ 64) T0.2
      h0_mode hmid' h0_bound
  set T1 := scaled_from_bits ((ab.drop 64).take 64) ((2 : ZMod p) ^ 64) T0.2 with hT1
  have hlow' : ∀ w ∈ List.replicate 32 csZero ++ ab.drop 128, w < (T1.2).next := fun w hw =>
    lt_of_lt_of_le (hlowS w hw) (le_trans h0_le h1_le)
  obtain ⟨⟨h2_le, h2_out, h2_mode, h2_bound⟩, h2_ext⟩ :=
    from_bits_complete (List.replicate 32 csZero ++ ab.drop 128) T1.2 h1_mode hlow' h1_bound
  set T2 := from_bits (List.replicate 32 csZero ++ ab.drop 128) T1.2 with hT2
  have ha3 : T0.1 < (T2.2).next := lt_of_lt_of_le h0_out (le_trans h1_le h2_le)
  have hb3 : T1.1 < (T2.2).next := lt_of_lt_of_le h1_out h2_le
  obtain ⟨⟨h3_out, h3_next, h3_mode, h3_bound⟩, h3_ext⟩ :=
    wire_add_complete T0.1 T1.1 T2.2 h2_mode ha3 hb3 h2_bound
  set T3 := wire_add T0.1 T1.1 T2.2 with hT3
  have h3_le : (T2.2).next ≤ (T3.2).next := by rw [h3_next]; omega
  have ha4 : T3.1 < (T3.2).next := by rw [h3_out, h3_next]; omega
  have hb4 : T2.1 < (T3.2).next := by rw [h3_next]; omega
  obtain ⟨⟨h4_out, h4_next, h4_mode, h4_bound⟩, h4_ext⟩ :=
    wire_add_complete T3.1 T2.1 T3.2 h3_mode ha4 hb4 h3_bound
  constructor
  · refine ⟨?_, h4_mode, h4_bound⟩
    have hch := le_trans h0_le (le_trans h1_le h2_le)
    rw [h4_next, h3_next]
    omega
  · intro v hv
    obtain ⟨v₀, hag0, hsat0, hval0⟩ := h0_ext v hv
    obtain ⟨v₁, hag1, hsat1, hval1⟩ := h1_ext v₀ hsat0
    obtain ⟨v₂, hag2, hsat2, hval2⟩ := h2_ext v₁ hsat1
    obtain ⟨v₃, hag3, hsat3, hval3⟩ := h3_ext v₂ hsat2
    obtain ⟨v₄, hag4, hsat4, hval4⟩ := h4_ext v₃ hsat3
    have hagto1 : agreeBelow s.next v v₁ := agreeBelow_trans h0_le hag0 hag1
    have hagto2 : agreeBelow s.next v v₂ :=
      agreeBelow_trans (le_trans h0_le h1_le) hagto1 hag2
    have hagto3 : agreeBelow s.next v v₃ :=
      agreeBelow_trans (le_trans (le_trans h0_le h1_le) h2_le) hagto2 hag3
    have hagto4 : agreeBelow s.next v v₄ :=
      agreeBelow_trans (le_trans (le_trans (le_trans h0_le h1_le) h2_le) h3_le) hagto3 hag4
    refine ⟨v₄, hagto4, hsat4, ?_⟩
    have e2 : v₃ T2.1 = v₂ T2.1 := hag3 _ h2_out
    have e0a : v₂ T0.1 = v₁ T0.1 := hag2 _ (lt_of_lt_of_le h0_out h1_le)
    have e0b : v₁ T0.1 = v₀ T0.1 := hag1 _ h0_out
    have e1 : v₂ T1.1 = v₁ T1.1 := hag2 _ h1_out
    rw [hval4, hval3, e2, hval2, e0a, e0b, hval0, e1, hval1]
    have m1 : msbVal v₀ ((ab.drop 64).take 64) = msbVal v ((ab.drop 64).take 64) :=
      msbVal_agree hmid hag0
    have m2 : msbVal v₁ (List.replicate 32 csZero ++ ab.drop 128) =
        msbVal v (List.replicate 32 csZero ++ ab.drop 128) :=
      msbVal_agree hlowS hagto1
    rw [m1, m2]

/-- Claim C2 amended: the packing step of `to_addr` concatenates
`state[1][32..]`, `state[2]` and `state[3]` into 160 bits and, in any
satisfying assignment, returns `hi64·2^128 + mid64·2^64 + low32` (not
`hi64·2^96 + mid64·2^32 + low32`), where the three chunks are the `from_bits`
(MSB-first) readings of the first 64, next 64, and last 32 of those bits. -/
theorem C2_amended_packing {p : Nat} (ab : List Nat) (s : CS p)
    (h : s.witnessGen = false) :
    ∀ v : Nat → ZMod p, Satisfies v ((packAddress ab s).2).constraints →
      v (packAddress ab s).1 =
        msbVal v (ab.take 64) * 2 ^ 128 + msbVal v ((ab.drop 64).take 64) * 2 ^ 64 +
          msbVal v (ab.drop 128) := by
  intro v hv
  obtain ⟨hone, hzero, hsat⟩ := hv
  have hp := pack_value v ab s h hone hsat
  rw [hp.1, msbVal_zero_prefix v (ab.drop 128) 32 hzero]

/-- Witness for the amended C2 at a concrete instance over the repository's
field. -/
theorem C2_amended_packing_witness :
    ((initCS secqP false).witnessGen = false) ∧
    (∀ v : Nat → ZMod secqP,
      Satisfies v ((packAddress [] (initCS secqP false)).2).constraints →
      v (packAddress [] (initCS secqP false)).1 =
        msbVal v (List.take 64 ([] : List Nat)) * 2 ^ 128 +
          msbVal v (List.take 64 (List.drop 64 ([] : List Nat))) * 2 ^ 64 +
          msbVal v (List.drop 128 ([] : List Nat))) :=
  ⟨rfl, C2_amended_packing [] (initCS secqP false) rfl⟩

set_option maxRecDepth 10000 in
/-- Counterexample to claim C2 as stated: with the first of the 160 address
bits valued 1 and all others 0, the satisfying assignment gives the output
`2^63·2^128 = 2^191`, while the claimed `hi64·2^96 + mid64·2^32 + low32`
packing predicts `2^63·2^96 = 2^159`; the two differ in the field. -/
theorem C2_counterexample :
    ¬ (∀ v : Nat → ZMod secqP, Satisfies v ((packCircuit secqP).2).constraints →
        v (packCircuit secqP).1 =
          msbVal v ((packInputs secqP).1.take 64) * 2 ^ 96 +
            msbVal v (((packInputs secqP).1.drop 64).take 64) * 2 ^ 32 +
            msbVal v ((packInputs secqP).1.drop 128)) := by
  intro hclaim
  have hwires : (packInputs secqP).1 =
      (List.range 160).map (fun i => (initCS secqP false).next + i) := by
    have hmw := mapCSM_alloc_wires (List.range 160) (initCS secqP false)
    rw [List.length_range] at hmw
    exact hmw
  have hnext : ((packInputs secqP).2).next = (initCS secqP false).next + 160 := by
    have hmn := mapCSM_alloc_next (List.range 160) (initCS secqP false)
    rw [List.length_range] at hmn
    exact hmn
  have hmode : ((packInputs secqP).2).witnessGen = false :=
    mapCSM_mode (fun _ => alloc_var (0 : ZMod secqP)) (fun a s => rfl) _ _
  have hbound := mapAlloc_csBound (List.range 160) (initCS secqP false) (initCS_csBound false)
  have hablt : ∀ w ∈ (packInputs secqP).1, w < ((packInputs secqP).2).next := by
    intro w hw
    rw [hwires] at hw
    obtain ⟨i, hi, hfi⟩ := List.mem_map.mp hw
    have hi' := List.mem_range.mp hi
    have hfi' : (initCS secqP false).next + i = w := hfi
    rw [hnext]
    omega
  obtain ⟨v₁, hag1, hsat1, hvals1⟩ :=
    mapAlloc_complete ((1 : ZMod secqP) :: List.replicate 159 0) (List.range 160)
      (initCS secqP false) (initCS_csBound false) (baseV secqP) (baseV_satisfies false)
  rw [List.length_range] at hvals1
  obtain ⟨hbounds, hext⟩ := pack_complete (packInputs secqP).1 (packInputs secqP).2
    hmode hablt hbound
  obtain ⟨v₂, hag2, hsat2, hval2⟩ := hext v₁ hsat1
  have hinst := hclaim v₂ hsat2
  have hmapv : (packInputs secqP).1.map v₁ = (1 : ZMod secqP) :: List.replicate 159 0 := by
    rw [hwires, List.map_map]
    refine map_range_getD 160 _ _ 0 (by simp) ?_
    intro i hi
    exact hvals1 i hi
  have hsub0 : ∀ w ∈ (packInputs secqP).1.take 64, w < ((packInputs secqP).2).next :=
    fun w hw => hablt w (List.take_subset _ _ hw)
  have hsub1 : ∀ w ∈ ((packInputs secqP).1.drop 64).take 64, w < ((packInputs secqP).2).next :=
    fun w hw => hablt w (List.drop_subset _ _ (List.take_subset _ _ hw))
  have hsub2 : ∀ w ∈ (packInputs secqP).1.drop 128, w < ((packInputs secqP).2).next :=
    fun w hw => hablt w (List.drop_subset _ _ hw)
  have hz1 : v₁ csZero = 0 := hsat1.2.1
  have c0 : msbVal v₁ ((packInputs secqP).1.take 64) =
      msbL (((1 : ZMod secqP) :: List.replicate 159 0).take 64) := by
    rw [msbVal_map, List.map_take, hmapv]
  have c1 : msbVal v₁ (((packInputs secqP).1.drop 64).take 64) =
      msbL ((((1 : ZMod secqP) :: List.replicate 159 0).drop 64).take 64) := by
    rw [msbVal_map, List.map_take, List.map_drop, hmapv]
  have c2 : msbVal v₁ ((packInputs secqP).1.drop 128) =
      msbL (((1 : ZMod secqP) :: List.replicate 159 0).drop 128) := by
    rw [msbVal_map, List.map_drop, hmapv]
  have m0 : msbVal v₂ ((packInputs secqP).1.take 64) =
      msbVal v₁ ((packInputs secqP).1.take 64) := msbVal_agree hsub0 hag2
  have m1 : msbVal v₂ (((packInputs secqP).1.drop 64).take 64) =
      msbVal v₁ (((packInputs secqP).1.drop 64).take 64) := msbVal_agree hsub1 hag2
  have m2 : msbVal v₂ ((packInputs secqP).1.drop 128) =
      msbVal v₁ ((packInputs secqP).1.drop 128) := msbVal_agree hsub2 hag2
  have hval2' : v₂ (packCircuit secqP).1 =
      msbVal v₁ ((packInputs secqP).1.take 64) * 2 ^ 128 +
        msbVal v₁ (((packInputs secqP).1.drop 64).take 64) * 2 ^ 64 +
        msbVal v₁ ((packInputs secqP).1.drop 128) := by
    have hz := msbVal_zero_prefix v₁ ((packInputs secqP).1.drop 128) 32 hz1
    rw [← hz]
    exact hval2
  rw [hval2', m0, m1, m2, c0, c1, c2] at hinst
  revert hinst
  decide

theorem Irr_pure {p : Nat} {α : Type} (a : α) : Irr (pure a : CSM p α) :=
  fun _ _ h => ⟨rfl, h⟩

theorem Irr_bind {p : Nat} {α β : Type} {m : CSM p α} {f : α → CSM p β}
    (hm : Irr m) (hf : ∀ a, Irr (f a)) : Irr (m >>= f) := by
  intro s w h
  obtain ⟨he, hmode⟩ := hm s w h
  constructor
  · show f (m { s with wires := w }).1 (m { s with wires := w }).2 = _
    rw [he]
    exact (hf (m s).1 ((m s).2) w hmode).1
  · exact (hf (m s).1 ((m s).2) ((m s).2).wires hmode).2

theorem Irr_constrain {p : Nat} (A B C : LinComb p) : Irr (constrain A B C) := by
  intro s w h
  refine ⟨?_, ?_⟩
  · simp [constrain, h]
  · rw [constrain_mode]; exact h

theorem Irr_alloc_var {p : Nat} (x : ZMod p) : Irr (alloc_var x) := by
  intro s w h
  refine ⟨?_, ?_⟩
  · simp [alloc_var, h]
  · rw [alloc_var_mode]; exact h

theorem Irr_alloc_const {p : Nat} (c : ZMod p) : Irr (alloc_const c) := by
  intro s w h
  refine ⟨?_, ?_⟩
  · simp [alloc_const, h]
  · rw [alloc_const_mode]; exact h

theorem Irr_assert_equal {p : Nat} (a b : Nat) : Irr (assert_equal (p := p) a b) := by
  intro s w h
  refine ⟨?_, ?_⟩
  · simp [assert_equal, h]
  · rw [assert_equal_mode]; exact h

theorem Irr_mapCSM {p : Nat} {α β : Type} (f : α → CSM p β) (hf : ∀ a, Irr (f a)) :
    ∀ l : List α, Irr (mapCSM f l) := by
  intro l
  induction l with
  | nil => exact Irr_pure []
  | cons a t ih => exact Irr_bind (hf a) (fun b => Irr_bind ih (fun bs => Irr_pure (b :: bs)))

theorem Irr_foldCSM {p : Nat} {α β : Type} (f : β → α → CSM p β) (hf : ∀ b a, Irr (f b a)) :
    ∀ (l : List α) (b : β), Irr (foldCSM f b l) := by
  intro l
  induction l with
  | nil => intro b; exact Irr_pure b
  | cons a t ih => intro b; exact Irr_bind (hf b a) (fun b' => ih b')

theorem Irr_xor_64 {p : Nat} (a b : List Nat) : Irr (xor_64 (p := p) a b) :=
  Irr_mapCSM _ (fun t => Irr_constrain _ _ _) _

theorem Irr_not_a_and_b_64 {p : Nat} (a b : List Nat) : Irr (not_a_and_b_64 (p := p) a b) :=
  Irr_mapCSM _ (fun t => Irr_constrain _ _ _) _

theorem Irr_fromBitsTerms {p : Nat} (bits : List Nat) :
    ∀ pow : ZMod p, Irr (fromBitsTerms bits pow) := by
  induction bits with
  | nil => intro pow; exact Irr_pure []
  | cons b l ih =>
    intro pow
    exact Irr_bind (Irr_constrain _ _ _)
      (fun m => Irr_bind (ih (pow * 2)) (fun ms => Irr_pure _))

theorem Irr_from_bits {p : Nat} (bits : List Nat) : Irr (from_bits (p := p) bits) :=
  Irr_bind (Irr_fromBitsTerms _ _) (fun t => Irr_constrain _ _ _)

theorem Irr_scaled_from_bits {p : Nat} (bits : List Nat) (k : ZMod p) :
    Irr (scaled_from_bits bits k) :=
  Irr_bind (Irr_from_bits _)
    (fun f => Irr_bind (Irr_alloc_const _) (fun c => Irr_constrain _ _ _))

theorem Irr_packAddress {p : Nat} (ab : List Nat) : Irr (packAddress (p := p) ab) :=
  Irr_bind (Irr_scaled_from_bits _ _)
    (fun s0 => Irr_bind (Irr_scaled_from_bits _ _)
      (fun s1 => Irr_bind (Irr_from_bits _)
        (fun s2 => Irr_bind (Irr_constrain _ _ _)
          (fun t => Irr_constrain _ _ _))))

theorem Irr_thetaC {p : Nat} (st : List (List Nat)) : Irr (thetaC (p := p) st) :=
  Irr_foldCSM _ (fun c t => Irr_bind (Irr_xor_64 _ _) (fun cx => Irr_pure _)) _ _

theorem Irr_thetaD {p : Nat} (c : List (List Nat)) : Irr (thetaD (p := p) c) :=
  Irr_mapCSM _ (fun x => Irr_xor_64 _ _) _

theorem Irr_thetaState {p : Nat} (st d : List (List Nat)) : Irr (thetaState (p := p) st d) :=
  Irr_mapCSM _ (fun t => Irr_xor_64 _ _) _

theorem Irr_chi {p : Nat} (st : List (List Nat)) : Irr (chi (p := p) st) :=
  Irr_mapCSM _ (fun t => Irr_bind (Irr_not_a_and_b_64 _ _) (fun n => Irr_xor_64 _ _)) _

theorem Irr_keccakRound {p : Nat} (st : List (List Nat)) (i : Nat) :
    Irr (keccakRound (p := p) st i) :=
  Irr_bind (Irr_thetaC _)
    (fun c => Irr_bind (Irr_thetaD _)
      (fun d => Irr_bind (Irr_thetaState _ _)
        (fun st1 => Irr_bind (Irr_chi _)
          (fun st3 => Irr_bind (Irr_xor_64 _ _)
            (fun l0 => Irr_pure _)))))

theorem Irr_to_addr {p : Nat} (input : List Nat) : Irr (to_addr (p := p) input) :=
  Irr_bind (Irr_foldCSM _ (fun st i => Irr_keccakRound st i) _ _)
    (fun st => Irr_packAddress _)

theorem Irr_to_addr_circuit {p : Nat} (vals : List (ZMod p)) : Irr (to_addr_circuit vals) :=
  Irr_bind (Irr_mapCSM _ (fun v => Irr_alloc_var v) _) (fun ws => Irr_to_addr ws)

theorem alloc_var_val_irrel {p : Nat} (x y : ZMod p) (s : CS p) (h : s.witnessGen = false) :
    alloc_var x s = alloc_var y s := by
  simp [alloc_var, h]

theorem mapAlloc_vals_eq {p : Nat} (xs : List (ZMod p)) :
    ∀ (ys : List (ZMod p)) (s : CS p), s.witnessGen = false → xs.length = ys.length →
      mapCSM (fun v => alloc_var v) xs s = mapCSM (fun v => alloc_var v) ys s := by
  induction xs with
  | nil =>
    intro ys s h hlen
    cases ys with
    | nil => rfl
    | cons b u => simp at hlen
  | cons a t ih =>
    intro ys s h hlen
    cases ys with
    | nil => simp at hlen
    | cons b u =>
      simp only [mapCSM, CSM.bind_apply, CSM.pure_apply]
      rw [alloc_var_val_irrel a b s h]
      rw [ih u (alloc_var b s).2 (by rw [alloc_var_mode]; exact h) (by simp at hlen; exact hlen)]

/-- Claim C6: constraint generation is deterministic and value-independent:
for any two input assignments of equal shape (length) and any two wire arenas,
the constraint-mode run of the `to_addr` synthesizer produces identical
constraint lists — the list depends only on the input shape, never on the
input values. -/
theorem C6_constraint_determinism {p : Nat} (xs ys : List (ZMod p))
    (hlen : xs.length = ys.length) (w₁ w₂ : WTrie p) :
    ((to_addr_circuit xs { initCS p false with wires := w₁ }).2).constraints =
      ((to_addr_circuit ys { initCS p false with wires := w₂ }).2).constraints := by
  have h0 : (initCS p false).witnessGen = false := rfl
  have hx := (Irr_to_addr_circuit xs) (initCS p false) w₁ h0
  have hy := (Irr_to_addr_circuit ys) (initCS p false) w₂ h0
  have hbase : to_addr_circuit xs (initCS p false) = to_addr_circuit ys (initCS p false) := by
    show (mapCSM (fun v => alloc_var v) xs >>= fun ws => to_addr ws) (initCS p false) =
      (mapCSM (fun v => alloc_var v) ys >>= fun ws => to_addr ws) (initCS p false)
    simp only [CSM.bind_apply]
    rw [mapAlloc_vals_eq xs ys (initCS p false) h0 hlen]
  have hstep : ∀ (A B : Nat × CS p) (w : WTrie p),
      A = (B.1, { B.2 with wires := w }) → (A.2).constraints = (B.2).constraints := by
    intro A B w hAB
    rw [hAB]
  rw [hstep _ _ _ hx.1, hstep _ _ _ hy.1, hbase]

/-- Witness for C6 over the repository's field: input values `0,…,0` versus
`1,…,1` on 512 wires, starting from two different arenas. -/
theorem C6_constraint_determinism_witness :
    (List.replicate 512 (0 : ZMod secqP)).length =
        (List.replicate 512 (1 : ZMod secqP)).length ∧
    ((to_addr_circuit (List.replicate 512 (0 : ZMod secqP))
        { initCS secqP false with wires := WTrie.leaf }).2).constraints =
      ((to_addr_circuit (List.replicate 512 (1 : ZMod secqP))
        { initCS secqP false with wires := tset WTrie.leaf 5 3 }).2).constraints :=
  ⟨by rw [List.length_replicate, List.length_replicate],
    C6_constraint_determinism (List.replicate 512 (0 : ZMod secqP))
      (List.replicate 512 (1 : ZMod secqP))
      (by rw [List.length_replicate, List.length_replicate]) WTrie.leaf (tset WTrie.leaf 5 3)⟩

end Sapir
